import Mathlib

/-!
Verification of the 104 job-insight crawler's reconciliation engine,
lifecycle storage operations, field normalizer and HTTP retry transport,
shallowly embedded from the Python sources
(`apps/crawler/processor.py`, `apps/crawler/crawler.py`,
`apps/crawler/storage.py`, `src/database/mongodb_manager.py`,
`src/utils/text_processing.py`, `src/utils/http_adapter.py`,
`apps/crawler/searcher.py`).
-/

namespace JobInsight

/-- A Python value as it occurs in the `search_keyword` field: `None`,
a string, or a (possibly nested) list.  Python lists are encoded as
`pnil` / `pcons` chains so that equality is structurally decidable. -/
inductive PyVal where
  | pnone
  | pstr (s : String)
  | pnil
  | pcons (hd tl : PyVal)
deriving DecidableEq, Repr

namespace PyVal

/-- Python truthiness of such a value (`None`, `""` and `[]` are falsy). -/
def truthy : PyVal → Bool
  | pnone => false
  | pstr s => s ≠ ""
  | pnil => false
  | pcons _ _ => true

/-- Is the value a Python list (`isinstance(v, list)`)? -/
def isList : PyVal → Bool
  | pnil => true
  | pcons _ _ => true
  | _ => false

/-- Is the value a Python string (`isinstance(v, str)`)? -/
def isStr : PyVal → Bool
  | pstr _ => true
  | _ => false

/-- Python `x in l` for a list value `l` (False on non-lists). -/
def mem : PyVal → PyVal → Bool
  | pcons h t, x => x = h || mem t x
  | _, _ => false

/-- Python `l.append(x)` on a list value (identity on non-lists). -/
def append : PyVal → PyVal → PyVal
  | pnil, x => pcons x pnil
  | pcons h t, x => pcons h (append t x)
  | v, _ => v

/-- Build a list value from a Lean list of strings. -/
def ofStrs : List String → PyVal
  | [] => pnil
  | s :: rest => pcons (pstr s) (ofStrs rest)

@[simp] theorem ofStrs_nil : ofStrs [] = pnil := rfl

@[simp] theorem ofStrs_cons (s : String) (l : List String) :
    ofStrs (s :: l) = pcons (pstr s) (ofStrs l) := rfl

end PyVal

/-- The value stored under a raw listing's `link` key: either the compound
string form or an already-structured bundle carrying the three sub-URLs
the code reads (`applyAnalyze`, `job`, `cust`). -/
inductive LinkVal where
  | lstr (s : String)
  | ldict (applyAnalyze jobUrl cust : String)
deriving DecidableEq, Repr

/-- Python truthiness of a `link` value: an empty string is falsy, a dict
with the three keys is non-empty hence truthy. -/
def LinkVal.truthy : LinkVal → Bool
  | .lstr s => s ≠ ""
  | .ldict _ _ _ => true

/-- One raw/processed listing record (a Python dict).  Every key the
crawler code reads or writes is a dedicated optional field (`none`
encodes key absence); all remaining content fields live in `rest`. -/
structure Job where
  jobNo : Option String := none
  searchKeyword : Option PyVal := none
  link : Option LinkVal := none
  jobAddrNoDesc : Option String := none
  status : Option String := none
  lastUpdateDate : Option String := none
  delistedDate : Option String := none
  applyAnalyze : Option String := none
  jobUrl : Option String := none
  cust : Option String := none
  city : Option String := none
  district : Option String := none
  mongodbUpdateTime : Option String := none
  rest : List (String × String) := []
deriving DecidableEq, Repr

/-- `job.get('jobNo')` followed by the `if not job_id` truthiness test of
`JobDataProcessor._merge_job_keywords`: `some i` iff the key is present
and non-empty. -/
def jobIdOf (j : Job) : Option String :=
  match j.jobNo with
  | none => none
  | some i => if i = "" then none else some i

/-! ### Association-list machinery mirroring a Python `dict`
(insertion order preserved, update in place). -/

/-- Look up a key in an insertion-ordered association list. -/
def alistFind (k : String) : List (String × Job) → Option Job
  | [] => none
  | (k', v) :: rest => if k' = k then some v else alistFind k rest

/-- Update the first binding of `k` in place, or append a new binding,
as a Python `dict` assignment does. -/
def alistUpsert (k : String) (v : Job) : List (String × Job) → List (String × Job)
  | [] => [(k, v)]
  | (k', v') :: rest =>
    if k' = k then (k, v) :: rest else (k', v') :: alistUpsert k v rest

/-! ### `JobDataProcessor._merge_job_keywords` (processor.py lines 88-142) -/

/-- The keyword-list normalisation applied when a job is first inserted
into the group map: a string keyword becomes a one-element list, an
absent keyword becomes the empty list, anything else is left alone. -/
def normalizeKw (kw : Option PyVal) : Option PyVal :=
  match kw with
  | some (PyVal.pstr s) => some (PyVal.pcons (PyVal.pstr s) PyVal.pnil)
  | none => some PyVal.pnil
  | other => other

/-- The existing-job branch: normalise the stored keyword value to a
list, then append the newcomer's keyword if it is truthy and not already
present. -/
def mergeKeywordInto (existingKw : Option PyVal) (newKw : Option PyVal) : PyVal :=
  let ks :=
    match existingKw.getD PyVal.pnil with
    | PyVal.pstr s => PyVal.pcons (PyVal.pstr s) PyVal.pnil
    | v => if v.truthy then v else PyVal.pnil
  let nk := newKw.getD PyVal.pnone
  if nk.truthy && !ks.mem nk then ks.append nk else ks

/-- One iteration of the grouping loop of
`JobDataProcessor._merge_job_keywords`. -/
def mergeStep (m : List (String × Job)) (j : Job) : List (String × Job) :=
  match jobIdOf j with
  | none => m
  | some i =>
    match alistFind i m with
    | some ex =>
      alistUpsert i { ex with searchKeyword := some (mergeKeywordInto ex.searchKeyword j.searchKeyword) } m
    | none =>
      alistUpsert i { j with searchKeyword := normalizeKw j.searchKeyword } m

/-- `JobDataProcessor._merge_job_keywords`: group the batch by `jobNo`
(first-seen record wins), accumulate keywords, and return the grouped
records in insertion order. -/
def mergeJobKeywords (jobs : List Job) : List Job :=
  ((jobs.foldl mergeStep []).map Prod.snd)

/-! ### `Crawler._merge_job_keywords` (crawler.py lines 733-778)

The legacy crawler's variant accesses `job["jobNo"]` and
`job["search_keyword"]` directly, so a record missing either key raises
`KeyError`; it has no truthiness filter on the id, no empty-list
normalisation, and appends a non-member keyword even when falsy. -/

/-- One iteration of the legacy grouping loop; `Except` carries the
exception a dict access or a membership test on a non-list raises. -/
def crawlerMergeStep (m : List (String × Job)) (j : Job) :
    Except String (List (String × Job)) := do
  let i ← match j.jobNo with
    | some i => pure i
    | none => throw "KeyError: jobNo"
  match alistFind i m with
  | some ex => do
    let exKw ← match ex.searchKeyword with
      | some v => pure v
      | none => throw "KeyError: search_keyword"
    let newKw ← match j.searchKeyword with
      | some v => pure v
      | none => throw "KeyError: search_keyword"
    let ks := match exKw with
      | PyVal.pstr s => PyVal.pcons (PyVal.pstr s) PyVal.pnil
      | v => v
    if ks.isList then
      let ks' := if ks.mem newKw then ks else ks.append newKw
      pure (alistUpsert i { ex with searchKeyword := some ks' } m)
    else
      throw "TypeError: argument not iterable"
  | none => do
    let kw ← match j.searchKeyword with
      | some v => pure v
      | none => throw "KeyError: search_keyword"
    let j' := if kw.isStr then { j with searchKeyword := some (PyVal.pcons kw PyVal.pnil) } else j
    pure (alistUpsert i j' m)

/-- `Crawler._merge_job_keywords`: propagates the `KeyError` a record
missing `jobNo` causes. -/
def crawlerMergeJobKeywords (jobs : List Job) : Except String (List Job) := do
  let m ← jobs.foldlM crawlerMergeStep []
  pure (m.map Prod.snd)

/-! ### `split_city_district` (text_processing.py lines 127-161)

The function runs `re.match` with the lazy patterns
`^(.*?[市縣])(.*?[區鄉鎮市])$` and `^(.*?[市縣])$`.  A lazy `.*?`
consumes the shortest prefix (and `.` never matches a newline), so the
first pattern succeeds at the least split point whose left part ends in
a city suffix and whose non-empty right part ends in a district suffix. -/

/-- Characters the city group `[市縣]` accepts. -/
def isCityChar (c : Char) : Bool := c = '市' || c = '縣'

/-- Characters the district group `[區鄉鎮市]` accepts. -/
def isDistChar (c : Char) : Bool := c = '區' || c = '鄉' || c = '鎮' || c = '市'

/-- What does `(.*?[區鄉鎮市])$` capture against `cs`?  Python's `$`
(without `re.MULTILINE`) matches at the end of the string or just
before one final newline, so the group is `cs` itself when `cs` ends in
a district character, or `cs` minus a trailing newline when the
character before that newline is a district character; in both cases
`.` excludes newlines, so everything before the district character must
be newline-free. -/
def distTailMatch (cs : List Char) : Option (List Char) :=
  match cs.reverse with
  | [] => none
  | c :: others =>
    if isDistChar c && others.all (fun x => x ≠ '\n') then some cs
    else if c = '\n' then
      match others with
      | [] => none
      | c2 :: others2 =>
        if isDistChar c2 && others2.all (fun x => x ≠ '\n') then some others.reverse
        else none
    else none

/-- Backtracking search for the lazy first pattern: extend the first
group one character at a time until its last character is a city suffix
and the remainder yields a district group. -/
def cityDistSplit (acc : List Char) : List Char → Option (List Char × List Char)
  | [] => none
  | c :: rest =>
    match if isCityChar c then distTailMatch rest else none with
    | some d => some ((c :: acc).reverse, d)
    | none =>
      if c = '\n' then none
      else cityDistSplit (c :: acc) rest

/-- `split_city_district`: try the two-group pattern, then the
city-only pattern (whose `$` likewise accepts one trailing newline,
excluded from the captured city), then fall back to `("", address)`. -/
def split_city_district (address : String) : String × String :=
  match cityDistSplit [] address.data with
  | some (p, s) => (String.mk p, String.mk s)
  | none =>
    match address.data.reverse with
    | [] => ("", address)
    | c :: others =>
      if isCityChar c && others.all (fun x => x ≠ '\n') then (address, "")
      else if c = '\n' then
        match others with
        | [] => ("", address)
        | c2 :: others2 =>
          if isCityChar c2 && others2.all (fun x => x ≠ '\n')
          then (String.mk others.reverse, "")
          else ("", address)
      else ("", address)

/-! ### `split_link_field` (text_processing.py lines 79-124)

`re.search` with patterns of the shape `'key':\s*(//[^,}]+)` — the
leftmost occurrence of the quoted key, optional whitespace, then a
protocol-relative URL running up to a comma or closing brace. -/

/-- The whitespace characters `\s` accepts (ASCII portion). -/
def isPySpace (c : Char) : Bool :=
  c = ' ' || c = '\t' || c = '\n' || c = '\r' || c = Char.ofNat 11 || c = Char.ofNat 12

/-- The closing-brace character that terminates a URL group. -/
def braceClose : Char := Char.ofNat 125

/-- Strip a literal character sequence from the head of the input. -/
def stripLit : List Char → List Char → Option (List Char)
  | [], cs => some cs
  | _ :: _, [] => none
  | l :: ls, c :: cs => if c = l then stripLit ls cs else none

/-- Try the pattern at the current position: literal key, greedy
whitespace, `//`, then a non-empty greedy run of characters other than
`,` and `}`; return the captured group. -/
def linkMatchHere (lit : List Char) (cs : List Char) : Option (List Char) :=
  match stripLit lit cs with
  | none => none
  | some rest =>
    match rest.dropWhile isPySpace with
    | '/' :: '/' :: more =>
      let body := more.takeWhile (fun c => c ≠ ',' && c ≠ braceClose)
      if body = [] then none else some ('/' :: '/' :: body)
    | _ => none

/-- `re.search`: scan start positions left to right, first hit wins. -/
def linkSearch (lit : List Char) : List Char → Option (List Char)
  | [] => linkMatchHere lit []
  | c :: rest =>
    match linkMatchHere lit (c :: rest) with
    | some r => some r
    | none => linkSearch lit rest

/-- Extract the URL captured after `'key':` in the compound string, or
`""` when the pattern does not occur. -/
def extractUrl (key : String) (s : String) : String :=
  match linkSearch ("'" ++ key ++ "':").data s.data with
  | some u => String.mk u
  | none => ""

/-- Prepend `https:` to a non-empty URL that lacks a protocol. -/
def addProto (u : String) : String :=
  if u ≠ "" && !(u.startsWith "http:" || u.startsWith "https:") then "https:" ++ u else u

/-- `split_link_field`: extract the three sub-URLs and normalise their
protocols; an unmatched component yields `""`. -/
def split_link_field (linkStr : String) : String × String × String :=
  (addProto (extractUrl "applyAnalyze" linkStr),
   addProto (extractUrl "job" linkStr),
   addProto (extractUrl "cust" linkStr))

/-! ### `JobDataProcessor._process_job_fields` (processor.py lines 181-240) -/

/-- The link-processing loop body: a structured bundle is read key by
key and protocol-normalised, a compound string goes through
`split_link_field`; the results land in `applyAnalyze`, `job`, `cust`. -/
def processLink (j : Job) : Job :=
  match j.link with
  | some lv =>
    if lv.truthy then
      match lv with
      | LinkVal.ldict a u c =>
        { j with applyAnalyze := some (addProto a), jobUrl := some (addProto u),
                 cust := some (addProto c) }
      | LinkVal.lstr s =>
        let r := split_link_field s
        { j with applyAnalyze := some r.1, jobUrl := some r.2.1, cust := some r.2.2 }
    else j
  | none => j

/-- The address-processing loop body: split `jobAddrNoDesc` into the
`city` and `district` fields. -/
def processAddr (j : Job) : Job :=
  match j.jobAddrNoDesc with
  | some ad =>
    if ad ≠ "" then
      let r := split_city_district ad
      { j with city := some r.1, district := some r.2 }
    else j
  | none => j

/-- `_process_job_fields`: one pass over the batch for links, one for
addresses. -/
def processJobFields (jobs : List Job) : List Job :=
  if jobs = [] then jobs else (jobs.map processLink).map processAddr

/-! ### `JobDataProcessor._process_job_status` (processor.py lines 144-179) -/

/-- Look up a listing id in the prior-state map (`{jobNo → status}`). -/
def lookupStatus (k : String) : List (String × String) → Option String
  | [] => none
  | (k', v) :: rest => if k' = k then some v else lookupStatus k rest

/-- The per-record body of the status loop: a re-seen record gets
today's `last_update_date`, and one previously inactive is flipped back
to active with its `delisted_date` popped. -/
def statusStep (today : String) (existing : List (String × String)) (j : Job) : Job :=
  match jobIdOf j with
  | none => j
  | some i =>
    match lookupStatus i existing with
    | some st =>
      let j' := { j with lastUpdateDate := some today }
      if st = "inactive" then { j' with status := some "active", delistedDate := none }
      else j'
    | none => { j with lastUpdateDate := some today }

/-- `_process_job_status` (no-op on an empty batch or empty prior map). -/
def processJobStatus (today : String) (jobs : List Job)
    (existing : List (String × String)) : List Job :=
  if jobs = [] || existing = [] then jobs else jobs.map (statusStep today existing)

/-- `JobDataProcessor.process_jobs` (processor.py lines 31-60): merge
duplicate discoveries, reconcile lifecycle status against the prior
state, then normalise the link and address fields. -/
def process_jobs (today : String) (jobs : List Job)
    (existing : List (String × String)) : List Job :=
  if jobs = [] then []
  else
    let d := mergeJobKeywords jobs
    let d := if existing ≠ [] then processJobStatus today d existing else d
    processJobFields d

/-! ### `MongoDBManager` (mongodb_manager.py)

A persisted document of the `jobs` collection.  `discovery_date` exists
only on documents, set by `$setOnInsert`; `status` is optional because
`get_existing_jobs` defends against documents lacking it. -/

structure JobDoc where
  jobNo : String
  status : Option String := none
  searchKeyword : Option PyVal := none
  link : Option LinkVal := none
  jobAddrNoDesc : Option String := none
  lastUpdateDate : Option String := none
  delistedDate : Option String := none
  applyAnalyze : Option String := none
  jobUrl : Option String := none
  cust : Option String := none
  city : Option String := none
  district : Option String := none
  mongodbUpdateTime : Option String := none
  discoveryDate : Option String := none
  rest : List (String × String) := []
deriving DecidableEq, Repr

/-- `$set` semantics on one optional field: a key present in the update
document overwrites, an absent key leaves the stored value alone. -/
def setOpt (new old : Option α) : Option α :=
  match new with
  | some v => some v
  | none => old

/-- Update-in-place of one string field inside the untyped remainder. -/
def restUpsert (k v : String) : List (String × String) → List (String × String)
  | [] => [(k, v)]
  | (k', v') :: rest =>
    if k' = k then (k, v) :: rest else (k', v') :: restUpsert k v rest

/-- `$set` semantics on the untyped remainder fields. -/
def restMerge (old new : List (String × String)) : List (String × String) :=
  new.foldl (fun acc kv => restUpsert kv.1 kv.2 acc) old

/-- `UpdateOne({'jobNo': …}, {'$set': job})` applied to a matched
document: every key present in the incoming record overwrites, all other
stored fields (in particular `delisted_date` and `discovery_date`)
survive. -/
def applySet (d : JobDoc) (j : Job) : JobDoc :=
  { jobNo := d.jobNo
    status := setOpt j.status d.status
    searchKeyword := setOpt j.searchKeyword d.searchKeyword
    link := setOpt j.link d.link
    jobAddrNoDesc := setOpt j.jobAddrNoDesc d.jobAddrNoDesc
    lastUpdateDate := setOpt j.lastUpdateDate d.lastUpdateDate
    delistedDate := setOpt j.delistedDate d.delistedDate
    applyAnalyze := setOpt j.applyAnalyze d.applyAnalyze
    jobUrl := setOpt j.jobUrl d.jobUrl
    cust := setOpt j.cust d.cust
    city := setOpt j.city d.city
    district := setOpt j.district d.district
    mongodbUpdateTime := setOpt j.mongodbUpdateTime d.mongodbUpdateTime
    discoveryDate := d.discoveryDate
    rest := restMerge d.rest j.rest }

/-- The document an upsert inserts when no `jobNo` match exists: the
incoming record plus `$setOnInsert: {discovery_date: today}`. -/
def newDocOf (today i : String) (j : Job) : JobDoc :=
  { jobNo := i
    status := j.status
    searchKeyword := j.searchKeyword
    link := j.link
    jobAddrNoDesc := j.jobAddrNoDesc
    lastUpdateDate := j.lastUpdateDate
    delistedDate := j.delistedDate
    applyAnalyze := j.applyAnalyze
    jobUrl := j.jobUrl
    cust := j.cust
    city := j.city
    district := j.district
    mongodbUpdateTime := j.mongodbUpdateTime
    discoveryDate := some today
    rest := j.rest }

/-- Find the document with the given `jobNo` (unique index). -/
def stateFind (i : String) : List JobDoc → Option JobDoc
  | [] => none
  | d :: rest => if d.jobNo = i then some d else stateFind i rest

/-- Replace the first document with the given `jobNo`. -/
def stateUpdate (i : String) (d' : JobDoc) : List JobDoc → List JobDoc
  | [] => []
  | d :: rest => if d.jobNo = i then d' :: rest else d :: stateUpdate i d' rest

/-- One `UpdateOne(…, upsert=True)` of the bulk write; `none` models the
`KeyError` that `job['jobNo']` raises on a record missing the key. -/
def upsertJob (now today : String) (state : List JobDoc) (j : Job) :
    Option (List JobDoc) :=
  match j.jobNo with
  | none => none
  | some i =>
    let j' := { j with mongodbUpdateTime := some now }
    match stateFind i state with
    | some d => some (stateUpdate i (applySet d j') state)
    | none => some (state ++ [newDocOf today i j'])

/-- `MongoDBManager.insert_jobs` (lines 112-160): stamp the update time
and bulk-upsert every record by `jobNo`. -/
def insertJobs (now today : String) (jobs : List Job) (state : List JobDoc) :
    Option (List JobDoc) :=
  if jobs = [] then some state
  else jobs.foldlM (upsertJob now today) state

/-- `MongoDBManager.update_job_status` (lines 208-243): every document
still `active` whose id is missing from the current run's id list is
flipped to `inactive` with `delisted_date` and `last_update_date` set to
today; an empty id list short-circuits to a no-op. -/
def updateJobStatusDB (today : String) (currentIds : List String)
    (state : List JobDoc) : List JobDoc :=
  if currentIds = [] then state
  else
    state.map fun d =>
      if ¬ currentIds.contains d.jobNo ∧ d.status = some "active" then
        { d with status := some "inactive", lastUpdateDate := some today,
                 delistedDate := some today }
      else d

/-- `FileJobStorage.update_job_status` (storage.py lines 359-384): the
in-memory backend's version of the same step over its `jobNo → job`
cache (also a no-op when the cache itself is empty). -/
def fileUpdateJobStatus (today : String) (currentIds : List String)
    (cache : List (String × Job)) : List (String × Job) :=
  if currentIds = [] ∨ cache = [] then cache
  else
    cache.map fun e =>
      if ¬ currentIds.contains e.1 ∧ e.2.status = some "active" then
        (e.1, { e.2 with status := some "inactive", lastUpdateDate := some today,
                         delistedDate := some today })
      else e

/-- `MongoDBManager.reactivate_jobs` (lines 272-314): documents in the
id list still marked `inactive` are set back to `active` with today's
`last_update_date`, and `$unset` removes `delisted_date`. -/
def reactivateJobsDB (today : String) (ids : List String)
    (state : List JobDoc) : List JobDoc :=
  if ids = [] then state
  else
    state.map fun d =>
      if ids.contains d.jobNo ∧ d.status = some "inactive" then
        { d with status := some "active", lastUpdateDate := some today,
                 delistedDate := none }
      else d

/-- `MongoDBManager.get_existing_jobs` (lines 245-270): project each
document to `(jobNo, status)`, defaulting a missing status to
`active`. -/
def getExistingJobs (state : List JobDoc) : List (String × String) :=
  state.map fun d => (d.jobNo, d.status.getD "active")

/-! ### `Crawler._process_job_status` and `Crawler.process_jobs_data`
(crawler.py lines 675-731 and 850-906)

The legacy pipeline's status step both mutates the in-memory batch and
issues the two MongoDB lifecycle updates.  Records reaching it have
passed `Crawler._merge_job_keywords`, so `job["jobNo"]` is present; the
`getD ""` below models that guaranteed dict access. -/

/-- In-memory part of the loop: re-seen records get today's
`last_update_date` and previously inactive ones are switched to
`active` (the crawler variant does not pop `delisted_date`). -/
def crawlerStatusStep (today : String) (existing : List (String × String))
    (j : Job) : Job :=
  match lookupStatus (j.jobNo.getD "") existing with
  | some st =>
    let j' := { j with lastUpdateDate := some today }
    if st = "inactive" then { j' with status := some "active" } else j'
  | none => { j with lastUpdateDate := some today }

/-- Ids collected for reactivation: those whose prior persisted status
is `inactive`. -/
def crawlerReactIds (existing : List (String × String)) (jobs : List Job) :
    List String :=
  jobs.filterMap fun j =>
    let i := j.jobNo.getD ""
    if lookupStatus i existing = some "inactive" then some i else none

/-- `Crawler._process_job_status`: read the prior state, deactivate the
documents missing from the current id list, update the in-memory batch,
then reactivate the re-seen inactive documents. -/
def crawlerProcessJobStatus (today : String) (state : List JobDoc)
    (jobs : List Job) : List Job × List JobDoc :=
  if jobs = [] then (jobs, state)
  else
    let existing := getExistingJobs state
    let currentIds := jobs.map fun j => j.jobNo.getD ""
    if existing = [] then
      (jobs.map fun j => { j with lastUpdateDate := some today }, state)
    else
      let state' := updateJobStatusDB today currentIds state
      let jobs' := jobs.map (crawlerStatusStep today existing)
      let reactIds := crawlerReactIds existing jobs
      let state'' := if reactIds ≠ [] then reactivateJobsDB today reactIds state' else state'
      (jobs', state'')

/-- `Crawler.process_jobs_data`: merge, lifecycle-reconcile, normalise
fields, then persist through `insert_jobs`; the pair carries the
processed batch and the resulting persisted state. -/
def processJobsData (now today : String) (state : List JobDoc)
    (allJobs : List Job) : Except String (List Job × List JobDoc) :=
  if allJobs = [] then Except.ok ([], state)
  else do
    let d ← crawlerMergeJobKeywords allJobs
    let p := crawlerProcessJobStatus today state d
    let d' := processJobFields p.1
    match insertJobs now today d' p.2 with
    | some state' => pure (d', state')
    | none => throw "KeyError: jobNo"

/-! ### `HttpAdapter.request` / `HttpAdapter.async_request`
(http_adapter.py lines 239-373 and 427-565)

The retry loop is embedded as a trace-producing function: the response
of each attempt is an oracle parameter, and every `time.sleep` /
`asyncio.sleep` and request issue is recorded as an event.  The jittered
delay `random.uniform(min_retry_delay*retries, max_retry_delay*retries)`
is recorded by its interval bounds. -/

/-- Outcome of one HTTP attempt as the retry loop distinguishes them;
a 429 carries the parsed `Retry-After` header when present. -/
inductive HttpResp where
  | ok (payload : String)
  | forbidden
  | tooMany (retryAfter : Option Nat)
  | httpError
  | netError
deriving DecidableEq, Repr

/-- Observable events of one `request` call. -/
inductive TraceEvent where
  | attempt (n : Nat)
  | sleepBackoff (lo hi : ℚ)
  | sleepRetryAfter (secs : Nat)
  | rotateUA
deriving DecidableEq, Repr

/-- The retry loop body (`while retries < self.max_retries`), with
`fuel = max_retries - retries` as the structural measure. -/
def requestGo (resp : Nat → HttpResp) (minD maxD : ℚ) (maxRetries : Nat) :
    Nat → Nat → Nat → List TraceEvent → List TraceEvent × Except String String
  | 0, _, _, acc => (acc, Except.error "max retries exceeded")
  | fuel + 1, retries, attemptNo, acc =>
    let acc := if retries > 0 then
      acc ++ [TraceEvent.sleepBackoff (minD * retries) (maxD * retries)] else acc
    let acc := acc ++ [TraceEvent.attempt attemptNo]
    match resp attemptNo with
    | HttpResp.ok p => (acc, Except.ok p)
    | HttpResp.forbidden =>
      requestGo resp minD maxD maxRetries fuel (retries + 1) (attemptNo + 1)
        (acc ++ [TraceEvent.rotateUA])
    | HttpResp.tooMany ra =>
      requestGo resp minD maxD maxRetries fuel (retries + 1) (attemptNo + 1)
        (acc ++ [TraceEvent.sleepRetryAfter (ra.getD 60)])
    | HttpResp.httpError =>
      if retries < maxRetries - 1 then
        requestGo resp minD maxD maxRetries fuel (retries + 1) (attemptNo + 1) acc
      else (acc, Except.error "request error")
    | HttpResp.netError =>
      if retries < maxRetries - 1 then
        requestGo resp minD maxD maxRetries fuel (retries + 1) (attemptNo + 1) acc
      else (acc, Except.error "request error")

/-- `HttpAdapter.request`: run the loop from zero retries. -/
def requestLoop (resp : Nat → HttpResp) (minD maxD : ℚ) (maxRetries : Nat) :
    List TraceEvent × Except String String :=
  requestGo resp minD maxD maxRetries maxRetries 0 0 []

/-! ### The bounded-concurrency gate (crawler.py line 117,
searcher.py lines 63-64, 196-254, 339-400)

Every request-issuing body (`get_first_page`, `search_with_semaphore`)
is wrapped in `async with self.semaphore` on one
`asyncio.Semaphore(MAX_CONCURRENCY)`.  Each task is modelled by its
phases: before acquiring, inside the gated request section, finished
(either by completing or by short-circuiting on a cache hit).  The
cooperative scheduler is a nondeterministic step relation. -/

/-- `MAX_CONCURRENCY` (constants.py). -/
def MAX_CONCURRENCY : Nat := 10

/-- The phase of one fetch task. -/
inductive TaskPhase where
  | init
  | critical
  | done
deriving DecidableEq, Repr

/-- Scheduler state: free semaphore permits plus the phase of every
task. -/
structure SchedState where
  sem : Nat
  tasks : List TaskPhase
deriving DecidableEq, Repr

/-- Number of tasks currently inside the gated request section, i.e.
simultaneously in-flight requests. -/
def inFlight (s : SchedState) : Nat :=
  s.tasks.countP (fun p => p = TaskPhase.critical)

/-- One cooperative scheduling step: a task may finish on a cache hit
without touching the gate, acquire a free permit to enter the request
section, or leave the section releasing its permit. -/
inductive SchedStep : SchedState → SchedState → Prop where
  | cacheHit (sem : Nat) (l r : List TaskPhase) :
      SchedStep ⟨sem, l ++ TaskPhase.init :: r⟩ ⟨sem, l ++ TaskPhase.done :: r⟩
  | acquire (sem : Nat) (l r : List TaskPhase) :
      SchedStep ⟨sem + 1, l ++ TaskPhase.init :: r⟩ ⟨sem, l ++ TaskPhase.critical :: r⟩
  | release (sem : Nat) (l r : List TaskPhase) :
      SchedStep ⟨sem, l ++ TaskPhase.critical :: r⟩ ⟨sem + 1, l ++ TaskPhase.done :: r⟩

/-- States reachable from launching `n` gated tasks against a fresh
semaphore of size `MAX_CONCURRENCY`. -/
def SchedReachable (n : Nat) (s : SchedState) : Prop :=
  Relation.ReflTransGen SchedStep ⟨MAX_CONCURRENCY, List.replicate n TaskPhase.init⟩ s

/-! ### Specification-side vocabulary

These definitions follow the spec's wording ("grouped by listing id",
"first-seen record", "duplicate-free union of the keywords") and are
compared against the code embeddings above. -/

/-- Keep the first occurrence of every string, helper with the set of
already-seen keys. -/
def dedupAux (seen : List String) : List String → List String
  | [] => []
  | x :: xs => if seen.contains x then dedupAux seen xs else x :: dedupAux (x :: seen) xs

/-- Order-preserving deduplication (first occurrence wins). -/
def dedupKeepFirst (l : List String) : List String := dedupAux [] l

/-- The well-formed listing ids of a batch, in order of appearance. -/
def validIds (jobs : List Job) : List String := jobs.filterMap jobIdOf

/-- The group of batch members carrying the given listing id. -/
def groupOf (i : String) (jobs : List Job) : List Job :=
  jobs.filter fun j => jobIdOf j = some i

/-- The keywords one raw record was discovered under (a record carries
at most one, as the searcher tags each payload with a single string). -/
def kwsOf (j : Job) : List String :=
  match j.searchKeyword with
  | some (PyVal.pstr s) => if s = "" then [] else [s]
  | _ => []

/-- All keywords of a listing's group, in order of appearance. -/
def groupKws (i : String) (jobs : List Job) : List String :=
  ((groupOf i jobs).map kwsOf).flatten

/-- The canonical record of a group according to the spec: the
first-seen record, with `searchKeywords` the duplicate-free union of
the whole group's keywords. -/
def canonicalJob (i : String) (jobs : List Job) : Job :=
  { (groupOf i jobs).headD {} with
    searchKeyword := some (PyVal.ofStrs (dedupKeepFirst (groupKws i jobs))) }

/-- The merge output the spec describes: one canonical record per
distinct listing id, in first-seen order. -/
def mergeSpec (jobs : List Job) : List Job :=
  (dedupKeepFirst (validIds jobs)).map fun i => canonicalJob i jobs

/-- The association-list form the grouping loop should reach. -/
def mergeSpecAssoc (jobs : List Job) : List (String × Job) :=
  (dedupKeepFirst (validIds jobs)).map fun i => (i, canonicalJob i jobs)

/-- A raw record whose keyword field is as the pipeline produces it:
absent, or a single non-empty keyword string. -/
def kwWF (j : Job) : Prop :=
  j.searchKeyword = none ∨ ∃ s, s ≠ "" ∧ j.searchKeyword = some (PyVal.pstr s)

/-- The status/`delisted_date` coupling invariant of the spec, for one
persisted document. -/
def docCoupled (d : JobDoc) : Prop :=
  (d.status = some "inactive" ↔ (d.delistedDate).isSome) ∧
  (d.status = some "active" ↔ d.delistedDate = none)

/-- The coupling invariant over a whole persisted state. -/
def stateCoupled (state : List JobDoc) : Prop :=
  ∀ d ∈ state, docCoupled d

/-! ## Lemmas about the address splitter -/

theorem distTailMatch_sound (cs d : List Char) (h : distTailMatch cs = some d) :
    (d = cs ∨ d ++ ['\n'] = cs) ∧ ∃ c d', d = d' ++ [c] ∧ isDistChar c = true := by
  unfold distTailMatch at h
  rcases hr : cs.reverse with _ | ⟨c, others⟩
  · rw [hr] at h; simp at h
  · rw [hr] at h
    simp only at h
    have hcs : cs = others.reverse ++ [c] := by
      have h0 := congrArg List.reverse hr
      simpa using h0
    by_cases h1 : (isDistChar c && others.all (fun x => x ≠ '\n')) = true
    · rw [if_pos h1] at h
      obtain rfl := Option.some.inj h
      exact ⟨Or.inl rfl, c, others.reverse, hcs, (Bool.and_eq_true _ _ ▸ h1).1⟩
    · rw [if_neg h1] at h
      by_cases h2 : c = '\n'
      · rw [if_pos h2] at h
        rcases ho : others with _ | ⟨c2, others2⟩
        · subst ho; simp at h
        · subst ho
          simp only at h
          by_cases h3 : (isDistChar c2 && others2.all (fun x => x ≠ '\n')) = true
          · rw [if_pos h3] at h
            obtain rfl := Option.some.inj h
            refine ⟨Or.inr ?_, c2, others2.reverse, by simp,
              (Bool.and_eq_true _ _ ▸ h3).1⟩
            rw [hcs, h2]
          · rw [if_neg h3] at h; simp at h
      · rw [if_neg h2] at h; simp at h

theorem cityDistSplit_sound (cs : List Char) :
    ∀ (acc p s : List Char), cityDistSplit acc cs = some (p, s) →
      (p ++ s = acc.reverse ++ cs ∨ p ++ s ++ ['\n'] = acc.reverse ++ cs) ∧
      (∃ c p', p = p' ++ [c] ∧ isCityChar c = true) ∧
      (∃ c s', s = s' ++ [c] ∧ isDistChar c = true) := by
  induction cs with
  | nil => intro acc p s h; simp [cityDistSplit] at h
  | cons c rest ih =>
    intro acc p s h
    simp only [cityDistSplit] at h
    by_cases hc : isCityChar c = true
    · rw [if_pos hc] at h
      rcases hd : distTailMatch rest with _ | d
      · rw [hd] at h
        simp only at h
        by_cases h2 : c = '\n'
        · rw [if_pos h2] at h; exact absurd h (by simp)
        · rw [if_neg h2] at h
          obtain ⟨hps, hcity, hdist⟩ := ih (c :: acc) p s h
          refine ⟨?_, hcity, hdist⟩
          rcases hps with h1 | h1
          · left; rw [h1]; simp
          · right; rw [h1]; simp
      · rw [hd] at h
        simp only at h
        obtain ⟨hp, hs⟩ := Prod.mk.injEq .. ▸ Option.some.injEq .. ▸ h
        subst hp hs
        obtain ⟨hdt, hshape⟩ := distTailMatch_sound rest d hd
        refine ⟨?_, ⟨c, acc.reverse, by simp, hc⟩, hshape⟩
        rcases hdt with h1 | h1
        · left; rw [← h1]; simp
        · right; rw [← h1]; simp
    · rw [if_neg hc] at h
      simp only at h
      by_cases h2 : c = '\n'
      · rw [if_pos h2] at h; exact absurd h (by simp)
      · rw [if_neg h2] at h
        obtain ⟨hps, hcity, hdist⟩ := ih (c :: acc) p s h
        refine ⟨?_, hcity, hdist⟩
        rcases hps with h1 | h1
        · left; rw [h1]; simp
        · right; rw [h1]; simp

/-- C9 — `split_city_district` is total and returns: `(city, district)`
when the lazy pattern `^(.*?[市縣])(.*?[區鄉鎮市])$` matches (Python's
`$` matching at the end of the string or just before one final
newline), `(city, "")` when only the city-level pattern matches, and
`("", address)` otherwise; the two components concatenate back to the
input up to at most one trailing newline, and the spec's two examples
hold — also under a trailing newline. -/
theorem split_city_district_spec (address : String) :
    (∃ t, (t = [] ∨ t = ['\n']) ∧
      (split_city_district address).1.data ++ (split_city_district address).2.data ++ t
        = address.data) ∧
    ((split_city_district address).1 ≠ "" ∧ (split_city_district address).2 ≠ "" →
      (∃ c p', (split_city_district address).1.data = p' ++ [c] ∧ isCityChar c = true) ∧
      (∃ c s', (split_city_district address).2.data = s' ++ [c] ∧ isDistChar c = true)) ∧
    ((split_city_district address).1 ≠ "" ∧ (split_city_district address).2 = "" →
      ∃ c p', (split_city_district address).1.data = p' ++ [c] ∧ isCityChar c = true) ∧
    ((split_city_district address).1 = "" →
      (split_city_district address).2 = address) ∧
    split_city_district "新竹市東區" = ("新竹市", "東區") ∧
    split_city_district "新竹市東區\n" = ("新竹市", "東區") ∧
    split_city_district "不明地址" = ("", "不明地址") := by
  have main :
      (∃ p s, cityDistSplit [] address.data = some (p, s) ∧
        split_city_district address = (String.mk p, String.mk s)) ∨
      (∃ c others, address.data.reverse = c :: others ∧ isCityChar c = true ∧
        split_city_district address = (address, "")) ∨
      (∃ c2 others2, address.data.reverse = '\n' :: c2 :: others2 ∧
        isCityChar c2 = true ∧
        split_city_district address = (String.mk (c2 :: others2).reverse, "")) ∨
      split_city_district address = ("", address) := by
    rcases h : cityDistSplit [] address.data with _ | ⟨p, s⟩
    · rcases hr : address.data.reverse with _ | ⟨c, others⟩
      · refine Or.inr (Or.inr (Or.inr ?_))
        unfold split_city_district
        simp only [h, hr]
      · by_cases hc1 : (isCityChar c && others.all fun x => x ≠ '\n') = true
        · refine Or.inr (Or.inl ⟨c, others, rfl, (Bool.and_eq_true _ _ ▸ hc1).1, ?_⟩)
          unfold split_city_district
          simp only [h, hr]
          rw [if_pos hc1]
        · by_cases hc2 : c = '\n'
          · subst hc2
            rcases ho : others with _ | ⟨c2, others2⟩
            · subst ho
              refine Or.inr (Or.inr (Or.inr ?_))
              unfold split_city_district
              simp only [h, hr]
              rw [if_neg hc1]
              simp
            · subst ho
              by_cases hc3 : (isCityChar c2 && others2.all fun x => x ≠ '\n') = true
              · refine Or.inr (Or.inr (Or.inl
                  ⟨c2, others2, rfl, (Bool.and_eq_true _ _ ▸ hc3).1, ?_⟩))
                unfold split_city_district
                simp only [h, hr]
                rw [if_neg hc1]
                simp only [if_true]
                rw [if_pos hc3]
              · refine Or.inr (Or.inr (Or.inr ?_))
                unfold split_city_district
                simp only [h, hr]
                rw [if_neg hc1]
                simp only [if_true]
                rw [if_neg hc3]
          · refine Or.inr (Or.inr (Or.inr ?_))
            unfold split_city_district
            simp only [h, hr]
            rw [if_neg hc1, if_neg hc2]
    · exact Or.inl ⟨p, s, rfl, by unfold split_city_district; simp only [h]⟩
  refine ⟨?_, ?_, ?_, ?_, by decide, by decide, by decide⟩
  · rcases main with ⟨p, s, h, hv⟩ | ⟨c, others, hr, hc, hv⟩ |
      ⟨c2, others2, hr, hc, hv⟩ | hv
    · obtain ⟨hps, _, _⟩ := cityDistSplit_sound address.data [] p s h
      rcases hps with h1 | h1
      · exact ⟨[], Or.inl rfl, by rw [hv]; simpa using h1⟩
      · exact ⟨['\n'], Or.inr rfl, by rw [hv]; simpa using h1⟩
    · exact ⟨[], Or.inl rfl, by rw [hv]; simp⟩
    · refine ⟨['\n'], Or.inr rfl, ?_⟩
      rw [hv]
      have h0 := congrArg List.reverse hr
      simp only [List.reverse_reverse] at h0
      rw [h0]
      simp
    · exact ⟨[], Or.inl rfl, by rw [hv]; simp⟩
  · rintro ⟨h1, hne⟩
    rcases main with ⟨p, s, h, hv⟩ | ⟨c, others, hr, hc, hv⟩ |
      ⟨c2, others2, hr, hc, hv⟩ | hv
    · obtain ⟨_, hcity, hdist⟩ := cityDistSplit_sound address.data [] p s h
      rw [hv]
      exact ⟨hcity, hdist⟩
    · rw [hv] at hne; simp at hne
    · rw [hv] at hne; simp at hne
    · rw [hv] at h1; simp at h1
  · rintro ⟨h1, h2⟩
    rcases main with ⟨p, s, h, hv⟩ | ⟨c, others, hr, hc, hv⟩ |
      ⟨c2, others2, hr, hc, hv⟩ | hv
    · obtain ⟨_, _, c, s', hs, _⟩ := cityDistSplit_sound address.data [] p s h
      rw [hv] at h2
      simp only at h2
      exact absurd (congrArg String.data h2) (by simp [hs])
    · rw [hv]
      refine ⟨c, others.reverse, ?_, hc⟩
      have h0 := congrArg List.reverse hr
      simpa using h0
    · rw [hv]
      exact ⟨c2, others2.reverse, by simp, hc⟩
    · rw [hv] at h1; simp at h1
  · intro h1
    rcases main with ⟨p, s, h, hv⟩ | ⟨c, others, hr, hc, hv⟩ |
      ⟨c2, others2, hr, hc, hv⟩ | hv
    · obtain ⟨_, ⟨c, p', hp, _⟩, _⟩ := cityDistSplit_sound address.data [] p s h
      rw [hv] at h1
      simp only at h1
      exact absurd (congrArg String.data h1) (by simp [hp])
    · rw [hv] at h1
      simp only at h1
      rw [hv]
      simp only
      apply String.ext
      simpa using (congrArg String.data h1).symm
    · rw [hv] at h1
      simp only at h1
      exact absurd (congrArg String.data h1) (by simp)
    · rw [hv]

/-! ## Lemmas about the HTTP retry loop -/

/-- The trace a run of the loop produces is its input accumulator
followed by the trace of the same run started on an empty one. -/
theorem requestGo_acc (resp : Nat → HttpResp) (minD maxD : ℚ) (maxR : Nat) :
    ∀ (fuel retries attemptNo : Nat) (acc : List TraceEvent),
      (requestGo resp minD maxD maxR fuel retries attemptNo acc).1 =
        acc ++ (requestGo resp minD maxD maxR fuel retries attemptNo []).1 := by
  intro fuel
  induction fuel with
  | zero => intro r a acc; simp [requestGo]
  | succ f ih =>
    intro r a acc
    have key : ∀ (x : List TraceEvent) (rr aa : Nat),
        (requestGo resp minD maxD maxR f rr aa (acc ++ x)).1 =
          acc ++ (requestGo resp minD maxD maxR f rr aa x).1 := by
      intro x rr aa
      rw [ih rr aa (acc ++ x), ih rr aa x, List.append_assoc]
    simp only [requestGo]
    rcases resp a with p | _ | ra | _ | _
    · by_cases hr : r > 0 <;> simp [hr]
    · by_cases hr : r > 0 <;>
        simp only [hr, ite_true, ite_false, List.nil_append, List.append_assoc] <;>
        rw [key]
    · by_cases hr : r > 0 <;>
        simp only [hr, ite_true, ite_false, List.nil_append, List.append_assoc] <;>
        rw [key]
    · by_cases hr : r > 0 <;> by_cases hlt : r < maxR - 1 <;>
        simp only [hr, hlt, ite_true, ite_false, List.nil_append, List.append_assoc] <;>
        first
          | rw [key]
          | simp
    · by_cases hr : r > 0 <;> by_cases hlt : r < maxR - 1 <;>
        simp only [hr, hlt, ite_true, ite_false, List.nil_append, List.append_assoc] <;>
        first
          | rw [key]
          | simp

/-- C8 (amended) — on HTTP 429 the loop reads `Retry-After` (60 when
absent) and sleeps exactly that long, but the next iteration of the
loop additionally sleeps the jittered backoff delay
`uniform(min_retry_delay*retries, max_retry_delay*retries)` before the
retry is issued: the two waits combine. -/
theorem tooMany_sleeps_retryAfter_then_backoff (resp : Nat → HttpResp)
    (ra : Option Nat) (minD maxD : ℚ) (maxR : Nat)
    (h0 : resp 0 = HttpResp.tooMany ra) (h2 : 2 ≤ maxR) :
    ∃ t, (requestLoop resp minD maxD maxR).1 =
      TraceEvent.attempt 0 :: TraceEvent.sleepRetryAfter (ra.getD 60) ::
      TraceEvent.sleepBackoff (minD * (1 : Nat)) (maxD * (1 : Nat)) ::
      TraceEvent.attempt 1 :: t := by
  obtain ⟨k, rfl⟩ : ∃ k, maxR = k + 2 := ⟨maxR - 2, by omega⟩
  unfold requestLoop
  simp only [requestGo, h0]
  norm_num
  rcases h1 : resp 1 with p | _ | ra' | _ | _
  · exact ⟨[], by simp⟩
  · rw [requestGo_acc resp minD maxD (k + 2) k 2 2]
    exact ⟨TraceEvent.rotateUA :: (requestGo resp minD maxD (k + 2) k 2 2 []).1, by simp⟩
  · rw [requestGo_acc resp minD maxD (k + 2) k 2 2]
    exact ⟨TraceEvent.sleepRetryAfter (ra'.getD 60) ::
      (requestGo resp minD maxD (k + 2) k 2 2 []).1, by simp⟩
  · by_cases hlt : 0 < k
    · simp only [if_pos hlt]
      rw [requestGo_acc resp minD maxD (k + 2) k 2 2]
      exact ⟨(requestGo resp minD maxD (k + 2) k 2 2 []).1, by simp⟩
    · simp only [if_neg hlt]
      exact ⟨[], by simp⟩
  · by_cases hlt : 0 < k
    · simp only [if_pos hlt]
      rw [requestGo_acc resp minD maxD (k + 2) k 2 2]
      exact ⟨(requestGo resp minD maxD (k + 2) k 2 2 []).1, by simp⟩
    · simp only [if_neg hlt]
      exact ⟨[], by simp⟩

/-- C8 witness: a 429 with `Retry-After: 10` followed by a success, with
the crawler's delay parameters (1.5s–5.0s, 3 retries). -/
theorem tooMany_sleeps_witness :
    ∃ t, (requestLoop (fun k => if k = 0 then HttpResp.tooMany (some 10) else HttpResp.ok "p")
        (3 / 2) 5 3).1 =
      TraceEvent.attempt 0 :: TraceEvent.sleepRetryAfter ((some 10).getD 60) ::
      TraceEvent.sleepBackoff ((3 / 2 : ℚ) * (1 : Nat)) ((5 : ℚ) * (1 : Nat)) ::
      TraceEvent.attempt 1 :: t :=
  tooMany_sleeps_retryAfter_then_backoff
    (fun k => if k = 0 then HttpResp.tooMany (some 10) else HttpResp.ok "p")
    (some 10) (3 / 2) 5 3 (by simp) (by norm_num)

/-- C8 counterexample: after a 429 with `Retry-After: 10` the loop does
not wait only those 10 seconds — a jittered backoff sleep is issued as
well before the retry, so the trace differs from the one the claim
describes. -/
theorem tooMany_extra_backoff_sleep :
    (requestLoop (fun k => if k = 0 then HttpResp.tooMany (some 10) else HttpResp.ok "p")
        (3 / 2) 5 3).1 =
      [TraceEvent.attempt 0, TraceEvent.sleepRetryAfter 10,
        TraceEvent.sleepBackoff (3 / 2) 5, TraceEvent.attempt 1] ∧
    (requestLoop (fun k => if k = 0 then HttpResp.tooMany (some 10) else HttpResp.ok "p")
        (3 / 2) 5 3).1 ≠
      [TraceEvent.attempt 0, TraceEvent.sleepRetryAfter 10, TraceEvent.attempt 1] := by
  constructor
  · show _ = _
    norm_num [requestLoop, requestGo]
  · intro h
    have := congrArg List.length h
    norm_num [requestLoop, requestGo] at this

/-! ## C3: the mark-missing-inactive step -/

/-- The per-document contract of the deactivation step: a prior-active
document missing from the current id set is deactivated and stamped,
and an already-inactive document is untouched. -/
def markMissingRel (today : String) (ids : List String) (d d' : JobDoc) : Prop :=
  (d.status = some "active" ∧ d.jobNo ∉ ids →
    d'.status = some "inactive" ∧ d'.delistedDate = some today ∧
    d'.lastUpdateDate = some today) ∧
  (d.status = some "inactive" → d' = d)

/-- The same contract for the file backend's `jobNo → job` cache. -/
def markMissingRelFile (today : String) (ids : List String)
    (e e' : String × Job) : Prop :=
  (e.2.status = some "active" ∧ e.1 ∉ ids →
    e'.2.status = some "inactive" ∧ e'.2.delistedDate = some today ∧
    e'.2.lastUpdateDate = some today) ∧
  (e.2.status = some "inactive" → e' = e)

/-- C3 (amended) — provided the current run's discovered-id set is
non-empty, `update_job_status` (both the MongoDB and the file backend)
marks every prior-active listing absent from it inactive with
`delisted_date` and `last_update_date` set to today, and leaves
already-inactive listings unmodified.  (On an empty id set the step
short-circuits and modifies nothing.) -/
theorem markMissingInactive_spec (today : String) (ids : List String)
    (state : List JobDoc) (cache : List (String × Job)) (h : ids ≠ []) :
    List.Forall₂ (markMissingRel today ids) state (updateJobStatusDB today ids state) ∧
    List.Forall₂ (markMissingRelFile today ids) cache
      (fileUpdateJobStatus today ids cache) := by
  constructor
  · unfold updateJobStatusDB
    rw [if_neg h]
    induction state with
    | nil => exact List.Forall₂.nil
    | cons d rest ih =>
      rw [List.map_cons]
      refine List.Forall₂.cons ?_ ih
      by_cases hcond : ¬ ids.contains d.jobNo ∧ d.status = some "active"
      · rw [if_pos hcond]
        constructor
        · intro _; exact ⟨rfl, rfl, rfl⟩
        · intro hin; rw [hcond.2] at hin; simp at hin
      · rw [if_neg hcond]
        constructor
        · rintro ⟨ha, hni⟩
          exfalso
          exact hcond ⟨by simpa [List.elem_iff] using hni, ha⟩
        · intro _; rfl
  · unfold fileUpdateJobStatus
    by_cases hc : cache = []
    · subst hc; simp
    · rw [if_neg (by simp [h, hc])]
      clear hc
      induction cache with
      | nil => exact List.Forall₂.nil
      | cons e rest ih =>
        rw [List.map_cons]
        refine List.Forall₂.cons ?_ ih
        by_cases hcond : ¬ ids.contains e.1 ∧ e.2.status = some "active"
        · rw [if_pos hcond]
          constructor
          · intro _; exact ⟨rfl, rfl, rfl⟩
          · intro hin; rw [hcond.2] at hin; simp at hin
        · rw [if_neg hcond]
          constructor
          · rintro ⟨ha, hni⟩
            exfalso
            exact hcond ⟨by simpa [List.elem_iff] using hni, ha⟩
          · intro _; rfl

/-- C3 witness: one prior-active document absent from the non-empty
discovered set `["B"]` is deactivated with today's dates. -/
theorem markMissingInactive_witness :
    List.Forall₂ (markMissingRel "2024-06-01" ["B"])
      [{ jobNo := "A1", status := some "active" }]
      (updateJobStatusDB "2024-06-01" ["B"] [{ jobNo := "A1", status := some "active" }]) ∧
    List.Forall₂ (markMissingRelFile "2024-06-01" ["B"]) []
      (fileUpdateJobStatus "2024-06-01" ["B"] []) :=
  markMissingInactive_spec "2024-06-01" ["B"]
    [{ jobNo := "A1", status := some "active" }] [] (by decide)

/-- C3 counterexample — the claim as stated fails on an empty
discovered-id set: an active document absent from it (vacuously) is
left active because `update_job_status` returns early when the current
id list is empty. -/
theorem markMissingInactive_empty_counterexample :
    updateJobStatusDB "2024-06-01" [] [{ jobNo := "A1", status := some "active" }] =
      [{ jobNo := "A1", status := some "active" }] ∧
    ("A1" ∉ ([] : List String)) ∧
    ({ jobNo := "A1", status := some "active" } : JobDoc).status ≠ some "inactive" := by
  refine ⟨rfl, by decide, by decide⟩

/-! ## C2: the status/delisted_date coupling invariant -/

theorem stateFind_mem (i : String) (t : List JobDoc) (d : JobDoc)
    (h : stateFind i t = some d) : d ∈ t ∧ d.jobNo = i := by
  induction t with
  | nil => simp [stateFind] at h
  | cons x rest ih =>
    simp only [stateFind] at h
    by_cases hx : x.jobNo = i
    · rw [if_pos hx] at h
      obtain rfl := Option.some.injEq .. ▸ h
      exact ⟨List.mem_cons_self .., hx⟩
    · rw [if_neg hx] at h
      obtain ⟨hm, hn⟩ := ih h
      exact ⟨List.mem_cons_of_mem _ hm, hn⟩

theorem stateUpdate_mem (i : String) (d' x : JobDoc) (t : List JobDoc)
    (h : x ∈ stateUpdate i d' t) : x = d' ∨ x ∈ t := by
  induction t with
  | nil => simp [stateUpdate] at h
  | cons y rest ih =>
    simp only [stateUpdate] at h
    by_cases hy : y.jobNo = i
    · rw [if_pos hy] at h
      rcases List.mem_cons.mp h with h | h
      · exact Or.inl h
      · exact Or.inr (List.mem_cons_of_mem _ h)
    · rw [if_neg hy] at h
      rcases List.mem_cons.mp h with h | h
      · exact Or.inr (h ▸ List.mem_cons_self ..)
      · rcases ih h with h | h
        · exact Or.inl h
        · exact Or.inr (List.mem_cons_of_mem _ h)

/-- One incoming record of a batch save that cannot destroy the
coupling: it is an active record without a `delisted_date`, and it does
not overwrite a document that still carries one. -/
def goodSaveJob (state : List JobDoc) (j : Job) : Prop :=
  j.status = some "active" ∧ j.delistedDate = none ∧
  ∀ d ∈ state, some d.jobNo = j.jobNo → d.delistedDate = none

theorem upsertJob_missing_id (now today : String) (t : List JobDoc) (j : Job)
    (h : j.jobNo = none) : upsertJob now today t j = none := by
  unfold upsertJob; rw [h]

theorem upsertJob_update (now today : String) (t : List JobDoc) (j : Job)
    (i : String) (d : JobDoc) (h : j.jobNo = some i) (hf : stateFind i t = some d) :
    upsertJob now today t j =
      some (stateUpdate i (applySet d { j with mongodbUpdateTime := some now }) t) := by
  unfold upsertJob; rw [h]; simp only; rw [hf]

theorem upsertJob_insert (now today : String) (t : List JobDoc) (j : Job)
    (i : String) (h : j.jobNo = some i) (hf : stateFind i t = none) :
    upsertJob now today t j =
      some (t ++ [newDocOf today i { j with mongodbUpdateTime := some now }]) := by
  unfold upsertJob; rw [h]; simp only; rw [hf]

theorem insertJobs_fold_coupled (now today : String) (state : List JobDoc) :
    ∀ (batch : List Job) (t : List JobDoc),
      (∀ j ∈ batch, goodSaveJob state j) →
      (stateCoupled t ∧ ∀ d ∈ t, d.delistedDate ≠ none → d ∈ state) →
      ∀ s', batch.foldlM (upsertJob now today) t = some s' →
        stateCoupled s' ∧ ∀ d ∈ s', d.delistedDate ≠ none → d ∈ state := by
  intro batch
  induction batch with
  | nil =>
    intro t _ hP s' hs
    simp only [List.foldlM_nil] at hs
    obtain rfl := Option.some.injEq .. ▸ hs
    exact hP
  | cons j rest ih =>
    intro t hgood hP s' hs
    simp only [List.foldlM_cons] at hs
    rcases hu : upsertJob now today t j with _ | t₁
    · rw [hu] at hs; simp at hs
    · rw [hu] at hs
      replace hs : List.foldlM (upsertJob now today) t₁ rest = some s' := hs
      have hgj := hgood j (List.mem_cons_self ..)
      have hP₁ : stateCoupled t₁ ∧ ∀ d ∈ t₁, d.delistedDate ≠ none → d ∈ state := by
        rcases hjn : j.jobNo with _ | i
        · rw [upsertJob_missing_id now today t j hjn] at hu; simp at hu
        · rcases hf : stateFind i t with _ | d
          · rw [upsertJob_insert now today t j i hjn hf] at hu
            obtain rfl := Option.some.injEq .. ▸ hu
            constructor
            · intro x hx
              rcases List.mem_append.mp hx with hx | hx
              · exact hP.1 x hx
              · have hx := List.mem_singleton.mp hx
                subst hx
                simp [docCoupled, newDocOf, hgj.1, hgj.2.1]
            · intro x hx hdel
              rcases List.mem_append.mp hx with hx | hx
              · exact hP.2 x hx hdel
              · have hx := List.mem_singleton.mp hx
                subst hx
                simp only [newDocOf, hgj.2.1] at hdel
                exact absurd rfl hdel
          · rw [upsertJob_update now today t j i d hjn hf] at hu
            obtain rfl := Option.some.injEq .. ▸ hu
            obtain ⟨hdm, hdn⟩ := stateFind_mem i t d hf
            have hddel : d.delistedDate = none := by
              by_cases hd : d.delistedDate = none
              · exact hd
              · exact hgj.2.2 d (hP.2 d hdm hd) (by rw [hdn, hjn])
            constructor
            · intro x hx
              rcases stateUpdate_mem i _ x t hx with hx | hx
              · subst hx
                simp [docCoupled, applySet, setOpt, hgj.1, hgj.2.1, hddel]
              · exact hP.1 x hx
            · intro x hx hdel
              rcases stateUpdate_mem i _ x t hx with hx | hx
              · subst hx
                simp only [applySet, setOpt, hgj.2.1, hddel] at hdel
                exact absurd rfl hdel
              · exact hP.2 x hx hdel
      exact ih t₁ (fun j' hj' => hgood j' (List.mem_cons_of_mem _ hj')) hP₁ s' hs

/-- C2 (amended) — the coupling invariant (`status == inactive` iff
`delisted_date` present) is preserved by the mark-missing-inactive step
and by the reactivation step; the batch save/upsert preserves it only
when no saved record overwrites a document still carrying a
`delisted_date` (the `$set`-based upsert never clears a stale one), as
is the case when reactivation has run first. -/
theorem lifecycle_coupling (now today : String) (ids : List String)
    (state : List JobDoc) (batch : List Job) (hc : stateCoupled state) :
    stateCoupled (updateJobStatusDB today ids state) ∧
    stateCoupled (reactivateJobsDB today ids state) ∧
    ∀ s', (∀ j ∈ batch, goodSaveJob state j) →
      insertJobs now today batch state = some s' → stateCoupled s' := by
  refine ⟨?_, ?_, ?_⟩
  · unfold updateJobStatusDB
    by_cases hids : ids = []
    · rw [if_pos hids]; exact hc
    · rw [if_neg hids]
      intro d' hd'
      obtain ⟨d, hd, rfl⟩ := List.mem_map.mp hd'
      by_cases hcond : ¬ ids.contains d.jobNo ∧ d.status = some "active"
      · rw [if_pos hcond]
        simp [docCoupled]
      · rw [if_neg hcond]; exact hc d hd
  · unfold reactivateJobsDB
    by_cases hids : ids = []
    · rw [if_pos hids]; exact hc
    · rw [if_neg hids]
      intro d' hd'
      obtain ⟨d, hd, rfl⟩ := List.mem_map.mp hd'
      by_cases hcond : ids.contains d.jobNo ∧ d.status = some "inactive"
      · rw [if_pos hcond]
        simp [docCoupled]
      · rw [if_neg hcond]; exact hc d hd
  · intro s' hgood hins
    unfold insertJobs at hins
    by_cases hb : batch = []
    · rw [if_pos hb] at hins
      obtain rfl := Option.some.injEq .. ▸ hins
      exact hc
    · rw [if_neg hb] at hins
      exact (insertJobs_fold_coupled now today state batch state hgood
        ⟨hc, fun d hd _ => hd⟩ s' hins).1

/-- C2 witness: a state with one coupled inactive document, reactivated
by `reactivate_jobs`, stays coupled; the (empty) batch save is also
covered. -/
theorem lifecycle_coupling_witness :
    stateCoupled (updateJobStatusDB "2024-06-02" ["A1"]
      [{ jobNo := "A1", status := some "inactive", delistedDate := some "2024-01-01" }]) ∧
    stateCoupled (reactivateJobsDB "2024-06-02" ["A1"]
      [{ jobNo := "A1", status := some "inactive", delistedDate := some "2024-01-01" }]) ∧
    ∀ s', (∀ j ∈ ([] : List Job), goodSaveJob
        [{ jobNo := "A1", status := some "inactive", delistedDate := some "2024-01-01" }] j) →
      insertJobs "now" "2024-06-02" []
        [{ jobNo := "A1", status := some "inactive", delistedDate := some "2024-01-01" }] = some s' →
      stateCoupled s' :=
  lifecycle_coupling "now" "2024-06-02" ["A1"]
    [{ jobNo := "A1", status := some "inactive", delistedDate := some "2024-01-01" }] []
    (by intro d hd; simp only [List.mem_singleton] at hd; subst hd; simp [docCoupled])

/-- C2 counterexample — saving a reactivated (active, no
`delisted_date`) record over a still-inactive document leaves the old
`delisted_date` in place next to `status = active`: the invariant does
not hold after this batch save, though the prior state was coupled. -/
theorem lifecycle_coupling_counterexample :
    insertJobs "now" "2024-06-02"
      [{ jobNo := some "A1", status := some "active",
         searchKeyword := some (PyVal.pcons (PyVal.pstr "java") PyVal.pnil),
         lastUpdateDate := some "2024-06-01" }]
      [{ jobNo := "A1", status := some "inactive", delistedDate := some "2024-01-01",
         searchKeyword := some (PyVal.pcons (PyVal.pstr "python") PyVal.pnil) }] =
      some [{ jobNo := "A1", status := some "active",
              searchKeyword := some (PyVal.pcons (PyVal.pstr "java") PyVal.pnil),
              lastUpdateDate := some "2024-06-01", delistedDate := some "2024-01-01",
              mongodbUpdateTime := some "now" }] ∧
    docCoupled ({ jobNo := "A1", status := some "inactive", delistedDate := some "2024-01-01",
                  searchKeyword := some (PyVal.pcons (PyVal.pstr "python") PyVal.pnil) } : JobDoc) ∧
    ¬ docCoupled ({ jobNo := "A1", status := some "active",
                    searchKeyword := some (PyVal.pcons (PyVal.pstr "java") PyVal.pnil),
                    lastUpdateDate := some "2024-06-01", delistedDate := some "2024-01-01",
                    mongodbUpdateTime := some "now" } : JobDoc) := by
  refine ⟨by decide, by simp [docCoupled], by simp [docCoupled]⟩

/-! ## C5: persisted searchKeywords across runs -/

theorem stateFind_stateUpdate_ne (i i' : String) (d' : JobDoc) (t : List JobDoc)
    (hne : i' ≠ i) (hd' : d'.jobNo = i') :
    stateFind i (stateUpdate i' d' t) = stateFind i t := by
  induction t with
  | nil => rfl
  | cons d rest ih =>
    simp only [stateUpdate]
    by_cases hd : d.jobNo = i'
    · rw [if_pos hd]
      simp only [stateFind, hd', hd]
      rw [if_neg hne, if_neg hne]
    · rw [if_neg hd]
      simp only [stateFind]
      by_cases hdi : d.jobNo = i
      · rw [if_pos hdi, if_pos hdi]
      · rw [if_neg hdi, if_neg hdi]
        exact ih

theorem stateFind_stateUpdate_self (i : String) (d d' : JobDoc) (t : List JobDoc)
    (hf : stateFind i t = some d) (hd' : d'.jobNo = i) :
    stateFind i (stateUpdate i d' t) = some d' := by
  induction t with
  | nil => simp [stateFind] at hf
  | cons x rest ih =>
    simp only [stateFind] at hf
    simp only [stateUpdate]
    by_cases hx : x.jobNo = i
    · rw [if_pos hx]
      simp [stateFind, hd']
    · rw [if_neg hx]
      simp only [stateFind, if_neg hx]
      rw [if_neg hx] at hf
      exact ih hf

theorem stateFind_append_singleton_ne (i : String) (nd : JobDoc) (t : List JobDoc)
    (h : ¬ nd.jobNo = i) :
    stateFind i (t ++ [nd]) = stateFind i t := by
  induction t with
  | nil => simp [stateFind, h]
  | cons d rest ih =>
    simp only [List.cons_append, stateFind]
    by_cases hd : d.jobNo = i
    · rw [if_pos hd, if_pos hd]
    · rw [if_neg hd, if_neg hd]; exact ih

theorem stateFind_append_singleton_self (i : String) (nd : JobDoc) (t : List JobDoc)
    (h : stateFind i t = none) (hnd : nd.jobNo = i) :
    stateFind i (t ++ [nd]) = some nd := by
  induction t with
  | nil => simp [stateFind, hnd]
  | cons d rest ih =>
    simp only [stateFind] at h
    simp only [List.cons_append, stateFind]
    by_cases hd : d.jobNo = i
    · rw [if_pos hd] at h; simp at h
    · rw [if_neg hd] at h
      rw [if_neg hd]
      exact ih h

theorem fold_preserves_stateFind (now today : String) (i : String) :
    ∀ (batch : List Job) (t s' : List JobDoc),
      (∀ j ∈ batch, j.jobNo ≠ some i) →
      batch.foldlM (upsertJob now today) t = some s' →
      stateFind i s' = stateFind i t := by
  intro batch
  induction batch with
  | nil =>
    intro t s' _ hs
    simp only [List.foldlM_nil] at hs
    obtain rfl := Option.some.injEq .. ▸ hs
    rfl
  | cons j rest ih =>
    intro t s' hni hs
    simp only [List.foldlM_cons] at hs
    rcases hu : upsertJob now today t j with _ | t₁
    · rw [hu] at hs; simp at hs
    · rw [hu] at hs
      replace hs : List.foldlM (upsertJob now today) t₁ rest = some s' := hs
      have step : stateFind i t₁ = stateFind i t := by
        rcases hjn : j.jobNo with _ | i₀
        · rw [upsertJob_missing_id now today t j hjn] at hu; simp at hu
        · have hii : i₀ ≠ i := by
            intro h; exact hni j (List.mem_cons_self ..) (by rw [hjn, h])
          rcases hf : stateFind i₀ t with _ | d
          · rw [upsertJob_insert now today t j i₀ hjn hf] at hu
            obtain rfl := Option.some.injEq .. ▸ hu
            exact stateFind_append_singleton_ne i _ t (by simp [newDocOf, hii])
          · rw [upsertJob_update now today t j i₀ d hjn hf] at hu
            obtain rfl := Option.some.injEq .. ▸ hu
            exact stateFind_stateUpdate_ne i i₀ _ t hii
              (by simp [applySet, (stateFind_mem i₀ t d hf).2])
      rw [ih t₁ s' (fun j' hj' => hni j' (List.mem_cons_of_mem _ hj')) hs, step]

/-- The induction core of the replacement property: after the bulk
write, the document of a listing saved exactly once carries the saved
record's keyword value. -/
theorem insertJobs_fold_kw (now today : String) (j : Job) (i : String) (v : PyVal)
    (hji : j.jobNo = some i) (hkw : j.searchKeyword = some v) :
    ∀ (batch : List Job) (t s' : List JobDoc),
      batch.foldlM (upsertJob now today) t = some s' →
      j ∈ batch →
      (∀ j' ∈ batch, j'.jobNo = some i → j' = j) →
      ∃ d', stateFind i s' = some d' ∧ d'.searchKeyword = some v := by
  intro batch
  induction batch with
  | nil => intro t s' _ hj _; simp at hj
  | cons j₀ rest ih =>
    intro t s' hins hj huniq
    simp only [List.foldlM_cons] at hins
    rcases hu : upsertJob now today t j₀ with _ | t₁
    · rw [hu] at hins; simp at hins
    · rw [hu] at hins
      replace hins : List.foldlM (upsertJob now today) t₁ rest = some s' := hins
      by_cases hmem : j ∈ rest
      · exact ih t₁ s' hins hmem (fun j' hj' h => huniq j' (List.mem_cons_of_mem _ hj') h)
      · have hjj : j = j₀ := by
          rcases List.mem_cons.mp hj with h | h
          · exact h
          · exact absurd h hmem
        subst hjj
        have hfound : stateFind i t₁ = some (match stateFind i t with
            | some d => applySet d { j with mongodbUpdateTime := some now }
            | none => newDocOf today i { j with mongodbUpdateTime := some now }) := by
          rcases hf : stateFind i t with _ | d
          · rw [upsertJob_insert now today t j i hji hf] at hu
            obtain rfl := Option.some.injEq .. ▸ hu
            exact stateFind_append_singleton_self i _ t hf (by simp [newDocOf])
          · rw [upsertJob_update now today t j i d hji hf] at hu
            obtain rfl := Option.some.injEq .. ▸ hu
            exact stateFind_stateUpdate_self i d _ t hf (by simp [applySet, (stateFind_mem i t d hf).2])
        have hpres : stateFind i s' = stateFind i t₁ := by
          refine fold_preserves_stateFind now today i rest t₁ s' ?_ hins
          intro j' hj' hcontra
          exact hmem ((huniq j' (List.mem_cons_of_mem _ hj') hcontra) ▸ hj')
        rw [hpres, hfound]
        rcases hf : stateFind i t with _ | d
        · exact ⟨_, rfl, by simp [newDocOf, hkw]⟩
        · exact ⟨_, rfl, by simp [applySet, setOpt, hkw]⟩

/-- C5 (amended) — a batch save stores, for each saved listing, exactly
the incoming record's `searchKeywords`: the upsert overwrites (`$set`)
the persisted value with this run's keyword list, so keywords from
prior runs are not unioned in and may disappear. -/
theorem save_replaces_keywords (now today : String) (batch : List Job)
    (state s' : List JobDoc)
    (hins : insertJobs now today batch state = some s')
    (j : Job) (hj : j ∈ batch) (i : String) (hji : j.jobNo = some i)
    (huniq : ∀ j' ∈ batch, j'.jobNo = some i → j' = j)
    (v : PyVal) (hkw : j.searchKeyword = some v) :
    ∃ d', stateFind i s' = some d' ∧ d'.searchKeyword = some v := by
  have hbne : batch ≠ [] := by rintro rfl; simp at hj
  unfold insertJobs at hins
  rw [if_neg hbne] at hins
  exact insertJobs_fold_kw now today j i v hji hkw batch state s' hins hj huniq

/-- C5 witness: saving one record discovered under `java` over a state
whose document held `python`; the persisted keywords equal the incoming
record's. -/
theorem save_replaces_keywords_witness :
    insertJobs "now" "2024-06-02"
      [{ jobNo := some "A1", status := some "active",
         searchKeyword := some (PyVal.pcons (PyVal.pstr "java") PyVal.pnil),
         lastUpdateDate := some "2024-06-02" }]
      [{ jobNo := "A1", status := some "active",
         searchKeyword := some (PyVal.pcons (PyVal.pstr "python") PyVal.pnil) }] =
      some [{ jobNo := "A1", status := some "active",
              searchKeyword := some (PyVal.pcons (PyVal.pstr "java") PyVal.pnil),
              lastUpdateDate := some "2024-06-02", mongodbUpdateTime := some "now" }] ∧
    (∃ d', stateFind "A1"
        [{ jobNo := "A1", status := some "active",
           searchKeyword := some (PyVal.pcons (PyVal.pstr "java") PyVal.pnil),
           lastUpdateDate := some "2024-06-02", mongodbUpdateTime := some "now" }] = some d' ∧
      d'.searchKeyword = some (PyVal.pcons (PyVal.pstr "java") PyVal.pnil)) := by
  constructor
  · decide
  · exact save_replaces_keywords "now" "2024-06-02"
      [{ jobNo := some "A1", status := some "active",
         searchKeyword := some (PyVal.pcons (PyVal.pstr "java") PyVal.pnil),
         lastUpdateDate := some "2024-06-02" }]
      [{ jobNo := "A1", status := some "active",
         searchKeyword := some (PyVal.pcons (PyVal.pstr "python") PyVal.pnil) }]
      [{ jobNo := "A1", status := some "active",
         searchKeyword := some (PyVal.pcons (PyVal.pstr "java") PyVal.pnil),
         lastUpdateDate := some "2024-06-02", mongodbUpdateTime := some "now" }]
      (by decide) _ (List.mem_singleton.mpr rfl) "A1" rfl (by decide) _ rfl

/-- C5 counterexample — the persisted `searchKeywords` of listing `A1`
held `python` before the run; after a save of a batch that discovered
`A1` only under `java`, the persisted set is `[java]`: it is not a
superset of the prior set, `python` was removed. -/
theorem save_keyword_removal_counterexample :
    insertJobs "now" "2024-06-02"
      [{ jobNo := some "A1", status := some "active",
         searchKeyword := some (PyVal.pcons (PyVal.pstr "java") PyVal.pnil),
         lastUpdateDate := some "2024-06-02" }]
      [{ jobNo := "A1", status := some "active",
         searchKeyword := some (PyVal.pcons (PyVal.pstr "python") PyVal.pnil) }] =
      some [{ jobNo := "A1", status := some "active",
              searchKeyword := some (PyVal.pcons (PyVal.pstr "java") PyVal.pnil),
              lastUpdateDate := some "2024-06-02", mongodbUpdateTime := some "now" }] ∧
    PyVal.mem (PyVal.pcons (PyVal.pstr "python") PyVal.pnil) (PyVal.pstr "python") = true ∧
    PyVal.mem (PyVal.pcons (PyVal.pstr "java") PyVal.pnil) (PyVal.pstr "python") = false := by
  refine ⟨by decide, by decide, by decide⟩

/-! ## C10: the bounded-concurrency gate -/

/-- A scheduling step keeps `sem + inFlight` constant. -/
theorem schedStep_invariant (s s' : SchedState) (h : SchedStep s s') :
    s'.sem + inFlight s' = s.sem + inFlight s := by
  cases h with
  | cacheHit sem l r =>
    simp [inFlight, List.countP_append, List.countP_cons]
  | acquire sem l r =>
    simp only [inFlight, List.countP_append, List.countP_cons]
    simp
    omega
  | release sem l r =>
    simp only [inFlight, List.countP_append, List.countP_cons]
    simp
    omega

theorem schedReachable_invariant (n : Nat) (s : SchedState)
    (h : SchedReachable n s) : s.sem + inFlight s = MAX_CONCURRENCY := by
  induction h with
  | refl =>
    simp [inFlight, List.countP_replicate]
  | tail _ hstep ih =>
    rw [schedStep_invariant _ _ hstep, ih]

/-- C10 — under the cooperative scheduler, however many gated fetch
tasks are launched, the number of tasks simultaneously inside the
request section (in-flight requests) never exceeds `MAX_CONCURRENCY`
(10), because every request site runs under
`async with self.semaphore`. -/
theorem inflight_bounded (n : Nat) (s : SchedState)
    (h : SchedReachable n s) : inFlight s ≤ MAX_CONCURRENCY := by
  have := schedReachable_invariant n s h
  omega

/-- C10 witness: with three launched tasks, the state after one task
acquires the gate is reachable and within the bound. -/
theorem inflight_bounded_witness :
    inFlight ⟨9, [TaskPhase.critical, TaskPhase.init, TaskPhase.init]⟩ ≤ MAX_CONCURRENCY :=
  inflight_bounded 3 ⟨9, [TaskPhase.critical, TaskPhase.init, TaskPhase.init]⟩
    (Relation.ReflTransGen.single
      (SchedStep.acquire 9 [] [TaskPhase.init, TaskPhase.init]))

/-! ## C1: the within-run merge against its specification -/

theorem pv_mem_ofStrs (l : List String) (s : String) :
    (PyVal.ofStrs l).mem (PyVal.pstr s) = l.contains s := by
  induction l with
  | nil => rfl
  | cons x rest ih =>
    simp only [PyVal.ofStrs, PyVal.mem, List.contains_cons, ih]
    by_cases h : s = x
    · subst h; simp
    · simp [h]

theorem pv_append_ofStrs (l : List String) (s : String) :
    (PyVal.ofStrs l).append (PyVal.pstr s) = PyVal.ofStrs (l ++ [s]) := by
  induction l with
  | nil => rfl
  | cons x rest ih => simp [PyVal.ofStrs, PyVal.append, ih]

/-- The list-normalisation step of the merge is the identity on values
built from string lists. -/
theorem pv_norm_ofStrs (K : List String) :
    (match PyVal.ofStrs K with
      | PyVal.pstr s => PyVal.pcons (PyVal.pstr s) PyVal.pnil
      | v => if v.truthy then v else PyVal.pnil) = PyVal.ofStrs K := by
  cases K with
  | nil => rfl
  | cons x rest => rfl

theorem dedupAux_congr (s1 s2 : List String)
    (h : ∀ x, s1.contains x = s2.contains x) :
    ∀ l, dedupAux s1 l = dedupAux s2 l := by
  intro l
  induction l generalizing s1 s2 with
  | nil => rfl
  | cons x rest ih =>
    by_cases hx : s2.contains x = true
    · have hx1 : s1.contains x = true := by rw [h x]; exact hx
      simp only [dedupAux, hx, hx1, if_true]
      exact ih s1 s2 h
    · have hx1 : ¬ s1.contains x = true := by rw [h x]; exact hx
      simp only [dedupAux]
      rw [if_neg hx1, if_neg hx]
      rw [ih (x :: s1) (x :: s2) (fun y => by simp only [List.contains_cons, h y])]

theorem dedupAux_snoc (a : String) :
    ∀ (l : List String) (seen : List String),
      dedupAux seen (l ++ [a]) =
        dedupAux seen l ++ (if (seen.contains a || l.contains a) then [] else [a]) := by
  intro l
  induction l with
  | nil => intro seen; by_cases h : seen.contains a = true <;> simp [dedupAux, h]
  | cons x rest ih =>
    intro seen
    rw [List.cons_append]
    by_cases hx : seen.contains x = true
    · simp only [dedupAux, hx, if_true]
      rw [ih seen]
      congr 1
      by_cases hxa : x = a
      · subst hxa; simp only [hx, Bool.true_or]
      · have hax : (a == x) = false := beq_eq_false_iff_ne.mpr (Ne.symm hxa)
        simp only [List.contains_cons, hax, Bool.false_or]
    · simp only [dedupAux]
      rw [if_neg hx, if_neg hx]
      rw [ih (x :: seen)]
      by_cases hxa : x = a
      · subst hxa
        have h1 : ((x :: seen).contains x) = true := by
          simp [List.contains_cons]
        have h2 : ((x :: rest).contains x) = true := by
          simp [List.contains_cons]
        rw [h1, h2]
        simp
      · have hax : (a == x) = false := beq_eq_false_iff_ne.mpr (Ne.symm hxa)
        have h1 : ((x :: seen).contains a) = seen.contains a := by
          simp only [List.contains_cons, hax, Bool.false_or]
        have h2 : ((x :: rest).contains a) = rest.contains a := by
          simp only [List.contains_cons, hax, Bool.false_or]
        rw [h1, h2]
        simp

theorem mem_dedupAux (x : String) :
    ∀ (l seen : List String),
      x ∈ dedupAux seen l ↔ x ∈ l ∧ seen.contains x = false := by
  intro l
  induction l with
  | nil => intro seen; simp [dedupAux]
  | cons y rest ih =>
    intro seen
    simp only [dedupAux]
    by_cases hy : seen.contains y = true
    · rw [if_pos hy, ih seen]
      constructor
      · rintro ⟨h1, h2⟩
        exact ⟨List.mem_cons_of_mem _ h1, h2⟩
      · rintro ⟨h1, h2⟩
        rcases List.mem_cons.mp h1 with h | h
        · subst h; rw [hy] at h2; simp at h2
        · exact ⟨h, h2⟩
    · rw [if_neg hy]
      constructor
      · intro h
        rcases List.mem_cons.mp h with h | h
        · subst h
          exact ⟨List.mem_cons_self .., by simpa using hy⟩
        · obtain ⟨h1, h2⟩ := (ih (y :: seen)).mp h
          refine ⟨List.mem_cons_of_mem _ h1, ?_⟩
          simp only [List.contains_cons, Bool.or_eq_false_iff] at h2
          exact h2.2
      · rintro ⟨h1, h2⟩
        rcases List.mem_cons.mp h1 with h | h
        · subst h; exact List.mem_cons_self ..
        · by_cases hxy : x = y
          · subst hxy; exact List.mem_cons_self ..
          · refine List.mem_cons_of_mem _ ((ih (y :: seen)).mpr ⟨h, ?_⟩)
            simp only [List.contains_cons, Bool.or_eq_false_iff]
            exact ⟨by simp [hxy], h2⟩

theorem mem_dedupKeepFirst (x : String) (l : List String) :
    x ∈ dedupKeepFirst l ↔ x ∈ l := by
  unfold dedupKeepFirst
  rw [mem_dedupAux]
  simp

theorem dedupAux_nodup : ∀ (l seen : List String), (dedupAux seen l).Nodup := by
  intro l
  induction l with
  | nil => intro seen; simp [dedupAux]
  | cons x rest ih =>
    intro seen
    simp only [dedupAux]
    by_cases hx : seen.contains x = true
    · rw [if_pos hx]; exact ih seen
    · rw [if_neg hx]
      refine List.nodup_cons.mpr ⟨?_, ih (x :: seen)⟩
      intro hmem
      obtain ⟨_, h2⟩ := (mem_dedupAux x rest (x :: seen)).mp hmem
      simp [List.contains_cons] at h2

theorem dedupKeepFirst_nodup (l : List String) : (dedupKeepFirst l).Nodup :=
  dedupAux_nodup l []

theorem dedupKeepFirst_snoc (l : List String) (a : String) :
    dedupKeepFirst (l ++ [a]) =
      dedupKeepFirst l ++ (if l.contains a then [] else [a]) := by
  unfold dedupKeepFirst
  rw [dedupAux_snoc]
  simp

theorem alistFind_map (i : String) (f : String → Job) :
    ∀ ks : List String,
      alistFind i (ks.map fun k => (k, f k)) =
        if i ∈ ks then some (f i) else none := by
  intro ks
  induction ks with
  | nil => simp [alistFind]
  | cons k rest ih =>
    simp only [List.map_cons, alistFind]
    by_cases hk : k = i
    · subst hk
      simp
    · rw [if_neg hk, ih]
      by_cases hm : i ∈ rest
      · rw [if_pos hm, if_pos (List.mem_cons_of_mem _ hm)]
      · rw [if_neg hm, if_neg (by simp [Ne.symm hk, hm])]

theorem alistUpsert_map_mem (i : String) (v : Job) (f : String → Job) :
    ∀ ks : List String, ks.Nodup → i ∈ ks →
      alistUpsert i v (ks.map fun k => (k, f k)) =
        ks.map fun k => (k, if k = i then v else f k) := by
  intro ks
  induction ks with
  | nil => intro _ h; simp at h
  | cons k rest ih =>
    intro hnd hm
    obtain ⟨hk, hnd'⟩ := List.nodup_cons.mp hnd
    simp only [List.map_cons, alistUpsert]
    by_cases hki : k = i
    · subst hki
      rw [if_pos rfl]
      simp only [if_pos rfl, List.cons.injEq, Prod.mk.injEq, true_and]
      refine ⟨rfl, ?_⟩
      apply List.map_congr_left
      intro x hx
      have : ¬ x = k := fun h => hk (h ▸ hx)
      rw [if_neg this]
    · rw [if_neg hki, if_neg hki]
      rcases List.mem_cons.mp hm with h | h
      · exact absurd h.symm hki
      · rw [ih hnd' h]

theorem alistUpsert_map_not_mem (i : String) (v : Job) (f : String → Job) :
    ∀ ks : List String, i ∉ ks →
      alistUpsert i v (ks.map fun k => (k, f k)) =
        (ks.map fun k => (k, f k)) ++ [(i, v)] := by
  intro ks
  induction ks with
  | nil => intro _; rfl
  | cons k rest ih =>
    intro hm
    simp only [List.map_cons, alistUpsert]
    have hki : ¬ k = i := fun h => hm (h ▸ List.mem_cons_self ..)
    rw [if_neg hki, ih (fun h => hm (List.mem_cons_of_mem _ h))]
    simp

theorem validIds_snoc (p : List Job) (j : Job) :
    validIds (p ++ [j]) = validIds p ++ (jobIdOf j).toList := by
  unfold validIds
  rw [List.filterMap_append]
  rcases h : jobIdOf j with _ | i <;> simp [h]

theorem groupOf_snoc (i : String) (p : List Job) (j : Job) :
    groupOf i (p ++ [j]) =
      groupOf i p ++ (if jobIdOf j = some i then [j] else []) := by
  unfold groupOf
  rw [List.filter_append]
  by_cases h : jobIdOf j = some i <;> simp [h]

theorem mem_validIds (i : String) (p : List Job) :
    i ∈ validIds p ↔ ∃ j ∈ p, jobIdOf j = some i := by
  unfold validIds
  simp [List.mem_filterMap]

theorem groupOf_eq_nil_iff (i : String) (p : List Job) :
    groupOf i p = [] ↔ i ∉ validIds p := by
  rw [mem_validIds]
  unfold groupOf
  constructor
  · intro h hex
    obtain ⟨j, hj, hid⟩ := hex
    have : j ∈ List.filter (fun j => jobIdOf j = some i) p :=
      List.mem_filter.mpr ⟨hj, by simp [hid]⟩
    rw [h] at this
    simp at this
  · intro h
    by_contra hne
    obtain ⟨j, hj⟩ := List.exists_mem_of_ne_nil _ hne
    obtain ⟨hjp, hid⟩ := List.mem_filter.mp hj
    exact h ⟨j, hjp, by simpa using hid⟩

theorem groupKws_snoc_other (i : String) (p : List Job) (j : Job)
    (h : jobIdOf j ≠ some i) :
    groupKws i (p ++ [j]) = groupKws i p := by
  unfold groupKws
  rw [groupOf_snoc, if_neg h]
  simp

theorem groupKws_snoc_self (i : String) (p : List Job) (j : Job)
    (h : jobIdOf j = some i) :
    groupKws i (p ++ [j]) = groupKws i p ++ kwsOf j := by
  unfold groupKws
  rw [groupOf_snoc, if_pos h]
  simp

theorem canonicalJob_snoc_other (i : String) (p : List Job) (j : Job)
    (h : jobIdOf j ≠ some i) :
    canonicalJob i (p ++ [j]) = canonicalJob i p := by
  unfold canonicalJob
  rw [groupOf_snoc, if_neg h, groupKws_snoc_other i p j h]
  simp

theorem mergeStep_id_missing (m : List (String × Job)) (j : Job)
    (h : jobIdOf j = none) : mergeStep m j = m := by
  unfold mergeStep; rw [h]

theorem mergeStep_found (m : List (String × Job)) (j : Job) (i : String) (ex : Job)
    (h : jobIdOf j = some i) (hf : alistFind i m = some ex) :
    mergeStep m j = alistUpsert i
      { ex with searchKeyword := some (mergeKeywordInto ex.searchKeyword j.searchKeyword) } m := by
  unfold mergeStep; rw [h]; simp only; rw [hf]

theorem mergeStep_new (m : List (String × Job)) (j : Job) (i : String)
    (h : jobIdOf j = some i) (hf : alistFind i m = none) :
    mergeStep m j = alistUpsert i
      { j with searchKeyword := normalizeKw j.searchKeyword } m := by
  unfold mergeStep; rw [h]; simp only; rw [hf]

/-- The keyword-merging branch with an absent newcomer keyword leaves
the canonical deduplicated list unchanged. -/
theorem mergeKeywordInto_none (G : List String) :
    mergeKeywordInto (some (PyVal.ofStrs (dedupKeepFirst G))) none =
      PyVal.ofStrs (dedupKeepFirst G) := by
  unfold mergeKeywordInto
  simp only [Option.getD]
  rw [pv_norm_ofStrs]
  simp [PyVal.truthy]

/-- The keyword-merging branch with a non-empty newcomer keyword
computes the deduplicated union. -/
theorem mergeKeywordInto_str (G : List String) (s : String) (hs : s ≠ "") :
    mergeKeywordInto (some (PyVal.ofStrs (dedupKeepFirst G))) (some (PyVal.pstr s)) =
      PyVal.ofStrs (dedupKeepFirst (G ++ [s])) := by
  unfold mergeKeywordInto
  simp only [Option.getD]
  rw [pv_norm_ofStrs, pv_mem_ofStrs]
  have htr : (PyVal.pstr s).truthy = true := by simp [PyVal.truthy, hs]
  have hKG : (dedupKeepFirst G).contains s = G.contains s := by
    by_cases hmem : s ∈ G
    · have h1 : s ∈ dedupKeepFirst G := (mem_dedupKeepFirst s G).mpr hmem
      simp [List.elem_iff, h1, hmem]
    · have h1 : s ∉ dedupKeepFirst G := fun h => hmem ((mem_dedupKeepFirst s G).mp h)
      simp [List.elem_iff, h1, hmem]
  rw [hKG, dedupKeepFirst_snoc]
  by_cases hG : G.contains s = true
  · rw [if_pos hG, List.append_nil,
      if_neg (by simp [htr, List.mem_of_elem_eq_true hG])]
  · have hnm : s ∉ G := fun h => hG (List.elem_eq_true_of_mem h)
    rw [if_neg hG, ← pv_append_ofStrs, if_pos (by simp [htr, hnm])]

/-- The canonical record of a fresh listing id is the new batch member
with the code's keyword normalisation applied. -/
theorem canonicalJob_new (i : String) (p : List Job) (j : Job)
    (hid : jobIdOf j = some i) (hmem : i ∉ validIds p) (hWF : kwWF j) :
    canonicalJob i (p ++ [j]) = { j with searchKeyword := normalizeKw j.searchKeyword } := by
  unfold canonicalJob groupKws
  rw [groupOf_snoc, if_pos hid, (groupOf_eq_nil_iff i p).mpr hmem]
  simp only [List.nil_append, List.map_cons, List.map_nil, List.flatten,
    List.append_nil, List.headD_cons]
  rcases hWF with hkw | ⟨s, hs, hkw⟩
  · rw [hkw]
    simp [kwsOf, hkw, dedupKeepFirst, dedupAux, normalizeKw]
  · rw [hkw]
    simp [kwsOf, hkw, hs, dedupKeepFirst, dedupAux, normalizeKw]

/-- The canonical record of an already-seen id keeps the first-seen
record and merges the newcomer's keyword. -/
theorem canonicalJob_snoc_self (i : String) (p : List Job) (j : Job)
    (hid : jobIdOf j = some i) (hmem : i ∈ validIds p) (hWF : kwWF j) :
    canonicalJob i (p ++ [j]) =
      { canonicalJob i p with
          searchKeyword := some (mergeKeywordInto (canonicalJob i p).searchKeyword j.searchKeyword) } := by
  have hgrp : groupOf i p ≠ [] := by
    intro h
    exact (groupOf_eq_nil_iff i p).mp h hmem
  have hhead : (groupOf i (p ++ [j])).headD {} = (groupOf i p).headD {} := by
    rw [groupOf_snoc, if_pos hid]
    rcases hg : groupOf i p with _ | ⟨x, rest⟩
    · exact absurd hg hgrp
    · simp
  have hkwl : groupKws i (p ++ [j]) = groupKws i p ++ kwsOf j :=
    groupKws_snoc_self i p j hid
  have hcankw : (canonicalJob i p).searchKeyword =
      some (PyVal.ofStrs (dedupKeepFirst (groupKws i p))) := rfl
  rcases hWF with hkw | ⟨s, hs, hkw⟩
  · rw [hkw, hcankw, mergeKeywordInto_none]
    have hk2 : kwsOf j = [] := by simp [kwsOf, hkw]
    unfold canonicalJob
    rw [hhead, hkwl, hk2, List.append_nil]
  · rw [hkw, hcankw, mergeKeywordInto_str (groupKws i p) s hs]
    have hk2 : kwsOf j = [s] := by simp [kwsOf, hkw, hs]
    unfold canonicalJob
    rw [hhead, hkwl, hk2]

/-- The grouping fold, started from the canonical association list of a
prefix, advances to the canonical association list of the extended
prefix. -/
theorem mergeStep_spec (p : List Job) (j : Job)
    (hWFp : ∀ x ∈ p, kwWF x) (hWFj : kwWF j) :
    mergeStep (mergeSpecAssoc p) j = mergeSpecAssoc (p ++ [j]) := by
  rcases hid : jobIdOf j with _ | i
  · rw [mergeStep_id_missing _ j hid]
    unfold mergeSpecAssoc
    rw [validIds_snoc, hid]
    simp only [Option.toList_none, List.append_nil]
    refine (List.map_congr_left ?_).symm
    intro k hk
    rw [canonicalJob_snoc_other k p j (by rw [hid]; simp)]
  · have hfind := alistFind_map i (fun k => canonicalJob k p) (dedupKeepFirst (validIds p))
    by_cases hmem : i ∈ validIds p
    · have hfind' : alistFind i (mergeSpecAssoc p) = some (canonicalJob i p) := by
        unfold mergeSpecAssoc
        rw [hfind, if_pos ((mem_dedupKeepFirst i _).mpr hmem)]
      rw [mergeStep_found _ j i _ hid hfind']
      unfold mergeSpecAssoc
      rw [alistUpsert_map_mem i _ _ (dedupKeepFirst (validIds p))
        (dedupKeepFirst_nodup _) ((mem_dedupKeepFirst i _).mpr hmem)]
      rw [validIds_snoc, hid]
      simp only [Option.toList_some]
      rw [dedupKeepFirst_snoc, if_pos (by simp [List.elem_iff, hmem]), List.append_nil]
      apply List.map_congr_left
      intro k hk
      by_cases hki : k = i
      · subst hki
        rw [if_pos rfl, canonicalJob_snoc_self k p j hid hmem hWFj]
      · rw [if_neg hki, canonicalJob_snoc_other k p j (by rw [hid]; simp [Ne.symm hki])]
    · have hfind' : alistFind i (mergeSpecAssoc p) = none := by
        unfold mergeSpecAssoc
        rw [hfind, if_neg (fun h => hmem ((mem_dedupKeepFirst i _).mp h))]
      rw [mergeStep_new _ j i hid hfind']
      unfold mergeSpecAssoc
      rw [alistUpsert_map_not_mem i _ _ (dedupKeepFirst (validIds p))
        (fun h => hmem ((mem_dedupKeepFirst i _).mp h))]
      rw [validIds_snoc, hid]
      simp only [Option.toList_some]
      rw [dedupKeepFirst_snoc, if_neg (by simp [List.elem_iff, hmem])]
      rw [List.map_append]
      congr 1
      · apply List.map_congr_left
        intro k hk
        have hki : k ≠ i := by
          intro h
          subst h
          exact hmem ((mem_dedupKeepFirst k _).mp hk)
        rw [canonicalJob_snoc_other k p j (by rw [hid]; simp [Ne.symm hki])]
      · simp only [List.map_cons, List.map_nil]
        rw [canonicalJob_new i p j hid hmem hWFj]

theorem mergeFold_spec (jobs : List Job) (hWF : ∀ j ∈ jobs, kwWF j) :
    jobs.foldl mergeStep [] = mergeSpecAssoc jobs := by
  have main : ∀ (rest p : List Job), (∀ x ∈ p, kwWF x) → (∀ x ∈ rest, kwWF x) →
      rest.foldl mergeStep (mergeSpecAssoc p) = mergeSpecAssoc (p ++ rest) := by
    intro rest
    induction rest with
    | nil => intro p _ _; simp
    | cons j rest' ih =>
      intro p hp hr
      rw [List.foldl_cons, mergeStep_spec p j hp (hr j (List.mem_cons_self ..)),
        ih (p ++ [j]) ?_ (fun x hx => hr x (List.mem_cons_of_mem _ hx))]
      · rw [List.append_assoc]
        rfl
      · intro x hx
        rcases List.mem_append.mp hx with h | h
        · exact hp x h
        · rw [List.mem_singleton.mp h]
          exact hr j (List.mem_cons_self ..)
  have h0 : mergeSpecAssoc [] = [] := rfl
  have := main jobs [] (by intro x hx; simp at hx) hWF
  rw [h0] at this
  simpa using this

/-- C1 — `_merge_job_keywords` groups a raw batch by listing id: the
output has exactly one record per distinct (present, non-empty) id, in
first-seen order; each output record is the group's first-seen record
with every field other than `searchKeywords` untouched, and its
`searchKeywords` is the duplicate-free union of the keywords of all
group members. -/
theorem merge_groups_by_id (jobs : List Job) (h : ∀ j ∈ jobs, kwWF j) :
    mergeJobKeywords jobs = mergeSpec jobs := by
  unfold mergeJobKeywords mergeSpec
  rw [mergeFold_spec jobs h]
  unfold mergeSpecAssoc
  rw [List.map_map]
  rfl

/-- C1 witness: one listing discovered under `python` and again under
`java` in the same batch yields one canonical record carrying both
keywords. -/
theorem merge_groups_by_id_witness :
    mergeJobKeywords
      [{ jobNo := some "A1", searchKeyword := some (PyVal.pstr "python"),
         rest := [("title", "Engineer")] },
       { jobNo := some "A1", searchKeyword := some (PyVal.pstr "java"),
         rest := [("title", "Engineer")] }] =
    mergeSpec
      [{ jobNo := some "A1", searchKeyword := some (PyVal.pstr "python"),
         rest := [("title", "Engineer")] },
       { jobNo := some "A1", searchKeyword := some (PyVal.pstr "java"),
         rest := [("title", "Engineer")] }] := by
  refine merge_groups_by_id _ ?_
  intro j hj
  rcases List.mem_cons.mp hj with h | h
  · subst h
    exact Or.inr ⟨"python", by decide, rfl⟩
  · rw [List.mem_singleton.mp h]
    exact Or.inr ⟨"java", by decide, rfl⟩

/-! ## C7: records without a listing id -/

/-- The keys of the grouping map. -/
def keysOf (m : List (String × Job)) : List String := m.map Prod.fst

theorem alistFind_isSome_iff (i : String) :
    ∀ m : List (String × Job), (alistFind i m).isSome ↔ i ∈ keysOf m := by
  intro m
  induction m with
  | nil => simp [alistFind, keysOf]
  | cons e rest ih =>
    simp only [alistFind, keysOf, List.map_cons]
    by_cases he : e.1 = i
    · simp [he]
    · rw [if_neg he]
      simp only [List.mem_cons]
      rw [ih]
      simp [keysOf, Ne.symm he]

theorem alistFind_mem (i : String) (ex : Job) :
    ∀ m : List (String × Job), alistFind i m = some ex → (i, ex) ∈ m := by
  intro m
  induction m with
  | nil => intro h; simp [alistFind] at h
  | cons e rest ih =>
    intro h
    simp only [alistFind] at h
    by_cases he : e.1 = i
    · rw [if_pos he] at h
      obtain rfl := Option.some.injEq .. ▸ h
      have hpair : (i, e.2) = e := by rw [← he]
      rw [hpair]
      exact List.mem_cons_self ..
    · rw [if_neg he] at h
      exact List.mem_cons_of_mem _ (ih h)

theorem keysOf_alistUpsert_mem (i : String) (v : Job) :
    ∀ m : List (String × Job), i ∈ keysOf m →
      keysOf (alistUpsert i v m) = keysOf m := by
  intro m
  induction m with
  | nil => intro h; simp [keysOf] at h
  | cons e rest ih =>
    intro h
    simp only [alistUpsert]
    by_cases he : e.1 = i
    · rw [if_pos he]
      simp [keysOf, he]
    · rw [if_neg he]
      simp only [keysOf, List.map_cons]
      have h2 : i ∈ e.1 :: keysOf rest := h
      have hrest : i ∈ keysOf rest := by
        rcases List.mem_cons.mp h2 with h1 | h1
        · exact absurd h1.symm he
        · exact h1
      have hup := ih hrest
      simp only [keysOf] at hup
      rw [hup]

theorem keysOf_alistUpsert_not_mem (i : String) (v : Job) :
    ∀ m : List (String × Job), i ∉ keysOf m →
      keysOf (alistUpsert i v m) = keysOf m ++ [i] := by
  intro m
  induction m with
  | nil => intro _; rfl
  | cons e rest ih =>
    intro h
    simp only [alistUpsert]
    have he : ¬ e.1 = i := fun hc => h (by simp [keysOf, hc])
    rw [if_neg he]
    simp only [keysOf, List.map_cons, List.cons_append]
    have hrest : i ∉ keysOf rest := by
      intro hc
      have h2 : i ∈ e.1 :: keysOf rest := List.mem_cons_of_mem _ hc
      exact h h2
    have hup := ih hrest
    simp only [keysOf] at hup
    rw [hup]

theorem alistUpsert_forall (i : String) (v : Job) (P : String × Job → Prop)
    (m : List (String × Job)) (hm : ∀ e ∈ m, P e) (hv : P (i, v)) :
    ∀ e ∈ alistUpsert i v m, P e := by
  induction m with
  | nil => intro e he; simp only [alistUpsert, List.mem_singleton] at he; rw [he]; exact hv
  | cons x rest ih =>
    intro e he
    simp only [alistUpsert] at he
    by_cases hx : x.1 = i
    · rw [if_pos hx] at he
      rcases List.mem_cons.mp he with h | h
      · rw [h]; exact hv
      · exact hm e (List.mem_cons_of_mem _ h)
    · rw [if_neg hx] at he
      rcases List.mem_cons.mp he with h | h
      · rw [h]; exact hm x (List.mem_cons_self ..)
      · exact ih (fun e' he' => hm e' (List.mem_cons_of_mem _ he')) e h

theorem contains_congr (l1 l2 : List String) (hiff : ∀ x, x ∈ l1 ↔ x ∈ l2) :
    ∀ y, l1.contains y = l2.contains y := by
  intro y
  show List.elem y l1 = List.elem y l2
  by_cases hy : y ∈ l1
  · rw [List.elem_eq_true_of_mem hy, List.elem_eq_true_of_mem ((hiff y).mp hy)]
  · have hy2 : y ∉ l2 := fun h => hy ((hiff y).mpr h)
    cases hb1 : List.elem y l1 with
    | false =>
      cases hb2 : List.elem y l2 with
      | false => rfl
      | true => exact absurd (List.mem_of_elem_eq_true hb2) hy2
    | true => exact absurd (List.mem_of_elem_eq_true hb1) hy

theorem validIds_cons (j : Job) (rest : List Job) :
    validIds (j :: rest) = (jobIdOf j).toList ++ validIds rest := by
  unfold validIds
  rw [List.filterMap_cons]
  rcases h : jobIdOf j with _ | i <;> simp

theorem mergeFold_keys :
    ∀ (jobs : List Job) (m : List (String × Job)),
      keysOf (jobs.foldl mergeStep m) = keysOf m ++ dedupAux (keysOf m) (validIds jobs) := by
  intro jobs
  induction jobs with
  | nil => intro m; simp [dedupAux, validIds]
  | cons j rest ih =>
    intro m
    rw [List.foldl_cons, validIds_cons]
    rcases hid : jobIdOf j with _ | i
    · rw [mergeStep_id_missing m j hid]
      simp only [Option.toList_none, List.nil_append]
      exact ih m
    · simp only [Option.toList_some, List.cons_append, List.nil_append]
      by_cases hmem : i ∈ keysOf m
      · obtain ⟨ex, hex⟩ := Option.isSome_iff_exists.mp ((alistFind_isSome_iff i m).mpr hmem)
        rw [mergeStep_found m j i ex hid hex, ih _,
          keysOf_alistUpsert_mem i _ m hmem]
        have hc : (keysOf m).contains i = true := List.elem_eq_true_of_mem hmem
        simp only [dedupAux, hc, if_true]
      · have hfind : alistFind i m = none := by
          rcases hf : alistFind i m with _ | ex
          · rfl
          · exact absurd ((alistFind_isSome_iff i m).mp (by simp [hf])) hmem
        rw [mergeStep_new m j i hid hfind, ih _,
          keysOf_alistUpsert_not_mem i _ m hmem]
        have hc : ¬ (keysOf m).contains i = true := fun h => hmem (List.mem_of_elem_eq_true h)
        simp only [dedupAux]
        rw [if_neg hc]
        rw [dedupAux_congr (keysOf m ++ [i]) (i :: keysOf m)
          (contains_congr _ _ (fun x => by simp [List.mem_append, List.mem_cons, Or.comm]))]
        simp

theorem mergeFold_ids :
    ∀ (jobs : List Job) (m : List (String × Job)),
      (∀ e ∈ m, jobIdOf e.2 = some e.1) →
      ∀ e ∈ jobs.foldl mergeStep m, jobIdOf e.2 = some e.1 := by
  intro jobs
  induction jobs with
  | nil => intro m hm; exact hm
  | cons j rest ih =>
    intro m hm
    rw [List.foldl_cons]
    rcases hid : jobIdOf j with _ | i
    · rw [mergeStep_id_missing m j hid]
      exact ih m hm
    · by_cases hmem : i ∈ keysOf m
      · obtain ⟨ex, hex⟩ := Option.isSome_iff_exists.mp ((alistFind_isSome_iff i m).mpr hmem)
        rw [mergeStep_found m j i ex hid hex]
        refine ih _ (alistUpsert_forall i _ _ m hm ?_)
        have := hm (i, ex) (alistFind_mem i ex m hex)
        exact this
      · have hfind : alistFind i m = none := by
          rcases hf : alistFind i m with _ | ex
          · rfl
          · exact absurd ((alistFind_isSome_iff i m).mp (by simp [hf])) hmem
        rw [mergeStep_new m j i hid hfind]
        refine ih _ (alistUpsert_forall i _ _ m hm ?_)
        exact hid

/-- C7 (amended) — the `JobDataProcessor` merge drops every record
whose `jobNo` is missing (or empty) and still processes all well-formed
records: the output carries exactly the distinct well-formed ids of the
batch, in first-seen order.  The legacy `Crawler._merge_job_keywords`,
however, raises `KeyError` on a record missing `jobNo` instead of
dropping it. -/
theorem malformed_record_dropped (jobs : List Job) :
    (mergeJobKeywords jobs).map jobIdOf = (dedupKeepFirst (validIds jobs)).map some ∧
    crawlerMergeJobKeywords
      [({ jobNo := none, searchKeyword := some (PyVal.pstr "python") } : Job)] =
      Except.error "KeyError: jobNo" := by
  constructor
  · unfold mergeJobKeywords
    rw [List.map_map]
    have h1 := mergeFold_ids jobs [] (by intro e he; simp at he)
    have h2 := mergeFold_keys jobs []
    have h3 : (jobs.foldl mergeStep []).map (jobIdOf ∘ Prod.snd) =
        (jobs.foldl mergeStep []).map (some ∘ Prod.fst) :=
      List.map_congr_left (fun e he => h1 e he)
    rw [h3, show ((some ∘ Prod.fst) : String × Job → Option String) =
      (some ∘ Prod.fst) from rfl, ← List.map_map]
    rw [show (jobs.foldl mergeStep []).map Prod.fst = keysOf (jobs.foldl mergeStep []) from rfl]
    rw [h2]
    rfl
  · rfl

/-- C7 counterexample — the claim says the merge step "never raises";
`Crawler._merge_job_keywords` on a batch holding one record without a
`jobNo` and one well-formed record raises `KeyError`, aborting the
whole batch. -/
theorem crawler_merge_raises_counterexample :
    crawlerMergeJobKeywords
      [{ jobNo := none, searchKeyword := some (PyVal.pstr "python") },
       { jobNo := some "B1", searchKeyword := some (PyVal.pstr "python") }] =
      Except.error "KeyError: jobNo" := by
  rfl

/-! ### Claim C6 — idempotence of `process_jobs` (processor.py lines 31-60)

Each per-record pass of the pipeline writes only fields it does not
read, so the passes are idempotent and commute pairwise; and the
keyword merge is the identity on its own output, whose records carry
distinct non-empty ids and list-valued (never string-valued) keyword
fields. -/

theorem processLink_idem (j : Job) : processLink (processLink j) = processLink j := by
  rcases j with ⟨n, k, lk, ad, st, lu, dd, aa, ju, cu, ci, di, mu, r⟩
  rcases lk with _ | s | ⟨a, u, c⟩
  · rfl
  · by_cases hs : s = "" <;> simp [processLink, LinkVal.truthy, hs]
  · simp [processLink, LinkVal.truthy]

theorem processAddr_idem (j : Job) : processAddr (processAddr j) = processAddr j := by
  rcases j with ⟨n, k, lk, ad, st, lu, dd, aa, ju, cu, ci, di, mu, r⟩
  rcases ad with _ | t
  · rfl
  · by_cases ht : t = "" <;> simp [processAddr, ht]

theorem processLink_processAddr_comm (j : Job) :
    processAddr (processLink j) = processLink (processAddr j) := by
  rcases j with ⟨n, k, lk, ad, st, lu, dd, aa, ju, cu, ci, di, mu, r⟩
  rcases lk with _ | s | ⟨a, u, c⟩ <;> rcases ad with _ | t
  · rfl
  · by_cases ht : t = "" <;> simp [processLink, processAddr, LinkVal.truthy, ht]
  · by_cases hs : s = "" <;> simp [processLink, processAddr, LinkVal.truthy, hs]
  · by_cases hs : s = "" <;> by_cases ht : t = "" <;>
      simp [processLink, processAddr, LinkVal.truthy, hs, ht]
  · simp [processLink, processAddr, LinkVal.truthy]
  · by_cases ht : t = "" <;> simp [processLink, processAddr, LinkVal.truthy, ht]

theorem statusStep_idem (today : String) (existing : List (String × String)) (j : Job) :
    statusStep today existing (statusStep today existing j) = statusStep today existing j := by
  rcases j with ⟨n, k, lk, ad, st, lu, dd, aa, ju, cu, ci, di, mu, r⟩
  rcases n with _ | i
  · rfl
  · by_cases hi : i = ""
    · simp [statusStep, jobIdOf, hi]
    · rcases hl : lookupStatus i existing with _ | s0
      · simp [statusStep, jobIdOf, hi, hl]
      · by_cases hst : s0 = "inactive" <;> simp [statusStep, jobIdOf, hi, hl, hst]

theorem statusStep_processLink_comm (today : String)
    (existing : List (String × String)) (j : Job) :
    processLink (statusStep today existing j) =
      statusStep today existing (processLink j) := by
  rcases j with ⟨n, k, lk, ad, st, lu, dd, aa, ju, cu, ci, di, mu, r⟩
  rcases n with _ | i
  · rcases lk with _ | s | ⟨a, u, c⟩
    · rfl
    · by_cases hs : s = "" <;>
        simp [statusStep, processLink, jobIdOf, LinkVal.truthy, hs]
    · simp [statusStep, processLink, jobIdOf, LinkVal.truthy]
  · by_cases hi : i = ""
    · rcases lk with _ | s | ⟨a, u, c⟩
      · simp [statusStep, processLink, jobIdOf, hi]
      · by_cases hs : s = "" <;>
          simp [statusStep, processLink, jobIdOf, LinkVal.truthy, hi, hs]
      · simp [statusStep, processLink, jobIdOf, LinkVal.truthy, hi]
    · rcases hl : lookupStatus i existing with _ | s0
      · rcases lk with _ | s | ⟨a, u, c⟩
        · simp [statusStep, processLink, jobIdOf, hi, hl]
        · by_cases hs : s = "" <;>
            simp [statusStep, processLink, jobIdOf, LinkVal.truthy, hi, hl, hs]
        · simp [statusStep, processLink, jobIdOf, LinkVal.truthy, hi, hl]
      · rcases lk with _ | s | ⟨a, u, c⟩
        · by_cases hst : s0 = "inactive" <;>
            simp [statusStep, processLink, jobIdOf, hi, hl, hst]
        · by_cases hst : s0 = "inactive" <;> by_cases hs : s = "" <;>
            simp [statusStep, processLink, jobIdOf, LinkVal.truthy, hi, hl, hst, hs]
        · by_cases hst : s0 = "inactive" <;>
            simp [statusStep, processLink, jobIdOf, LinkVal.truthy, hi, hl, hst]

theorem statusStep_processAddr_comm (today : String)
    (existing : List (String × String)) (j : Job) :
    processAddr (statusStep today existing j) =
      statusStep today existing (processAddr j) := by
  rcases j with ⟨n, k, lk, ad, st, lu, dd, aa, ju, cu, ci, di, mu, r⟩
  rcases n with _ | i
  · rcases ad with _ | t
    · rfl
    · by_cases ht : t = "" <;> simp [statusStep, processAddr, jobIdOf, ht]
  · by_cases hi : i = ""
    · rcases ad with _ | t
      · simp [statusStep, processAddr, jobIdOf, hi]
      · by_cases ht : t = "" <;> simp [statusStep, processAddr, jobIdOf, hi, ht]
    · rcases hl : lookupStatus i existing with _ | s0
      · rcases ad with _ | t
        · simp [statusStep, processAddr, jobIdOf, hi, hl]
        · by_cases ht : t = "" <;> simp [statusStep, processAddr, jobIdOf, hi, hl, ht]
      · rcases ad with _ | t
        · by_cases hst : s0 = "inactive" <;>
            simp [statusStep, processAddr, jobIdOf, hi, hl, hst]
        · by_cases hst : s0 = "inactive" <;> by_cases ht : t = "" <;>
            simp [statusStep, processAddr, jobIdOf, hi, hl, hst, ht]

theorem jobIdOf_congr (x y : Job) (h : x.jobNo = y.jobNo) : jobIdOf x = jobIdOf y := by
  unfold jobIdOf; rw [h]

theorem processLink_same (j : Job) :
    (processLink j).jobNo = j.jobNo ∧ (processLink j).searchKeyword = j.searchKeyword := by
  unfold processLink
  rcases j.link with _ | lv
  · exact ⟨rfl, rfl⟩
  · by_cases ht : lv.truthy = true
    · rcases lv with s | ⟨a, u, c⟩ <;> simp [ht]
    · simp [ht]

theorem processAddr_same (j : Job) :
    (processAddr j).jobNo = j.jobNo ∧ (processAddr j).searchKeyword = j.searchKeyword := by
  unfold processAddr
  rcases j.jobAddrNoDesc with _ | t
  · exact ⟨rfl, rfl⟩
  · by_cases ht : t = "" <;> simp [ht]

theorem statusStep_same (today : String) (existing : List (String × String)) (j : Job) :
    (statusStep today existing j).jobNo = j.jobNo ∧
      (statusStep today existing j).searchKeyword = j.searchKeyword := by
  unfold statusStep
  rcases jobIdOf j with _ | i
  · exact ⟨rfl, rfl⟩
  · simp only
    rcases lookupStatus i existing with _ | s0
    · exact ⟨rfl, rfl⟩
    · by_cases hst : s0 = "inactive" <;> simp [hst]

theorem fieldPass_same (x : Job) :
    (processAddr (processLink x)).jobNo = x.jobNo ∧
      (processAddr (processLink x)).searchKeyword = x.searchKeyword := by
  obtain ⟨h1, h2⟩ := processAddr_same (processLink x)
  obtain ⟨h3, h4⟩ := processLink_same x
  exact ⟨h1.trans h3, h2.trans h4⟩

theorem statusFieldPass_same (today : String) (existing : List (String × String)) (x : Job) :
    (processAddr (processLink (statusStep today existing x))).jobNo = x.jobNo ∧
      (processAddr (processLink (statusStep today existing x))).searchKeyword =
        x.searchKeyword := by
  obtain ⟨h1, h2⟩ := fieldPass_same (statusStep today existing x)
  obtain ⟨h3, h4⟩ := statusStep_same today existing x
  exact ⟨h1.trans h3, h2.trans h4⟩

theorem fieldPass_idem (r : Job) :
    processAddr (processLink (processAddr (processLink r))) =
      processAddr (processLink r) := by
  rw [processLink_processAddr_comm r, processLink_idem (processAddr r),
    processLink_processAddr_comm (processAddr r), processAddr_idem r]

theorem statusPass_idem (today : String) (existing : List (String × String)) (r : Job) :
    processAddr (processLink (statusStep today existing
        (processAddr (processLink (statusStep today existing r))))) =
      processAddr (processLink (statusStep today existing r)) := by
  rw [← statusStep_processAddr_comm, ← statusStep_processLink_comm, statusStep_idem]
  exact fieldPass_idem (statusStep today existing r)

theorem append_isStr (l x : PyVal) (hl : l.isStr = false) :
    (PyVal.append l x).isStr = false := by
  cases l <;> simp_all [PyVal.append, PyVal.isStr]

theorem mergeKeywordInto_isStr (ek nk : Option PyVal) :
    (mergeKeywordInto ek nk).isStr = false := by
  rcases ek with _ | v
  · simp only [mergeKeywordInto, Option.getD_none, PyVal.truthy]
    split_ifs <;> simp_all [PyVal.isStr, PyVal.append]
  · rcases v with _ | s | _ | ⟨h, t⟩ <;>
      simp only [mergeKeywordInto, Option.getD_some, PyVal.truthy] <;>
      split_ifs <;> simp_all [PyVal.isStr, PyVal.append]

theorem normalizeKw_shape (kw : Option PyVal) :
    ∃ v, normalizeKw kw = some v ∧ v.isStr = false := by
  rcases kw with _ | v
  · exact ⟨PyVal.pnil, rfl, rfl⟩
  · rcases v with _ | s | _ | ⟨h, t⟩
    · exact ⟨PyVal.pnone, rfl, rfl⟩
    · exact ⟨PyVal.pcons (PyVal.pstr s) PyVal.pnil, rfl, rfl⟩
    · exact ⟨PyVal.pnil, rfl, rfl⟩
    · exact ⟨PyVal.pcons h t, rfl, rfl⟩

theorem normalizeKw_nonstr (v : PyVal) (hv : v.isStr = false) :
    normalizeKw (some v) = some v := by
  rcases v with _ | s | _ | ⟨h, t⟩
  · rfl
  · simp [PyVal.isStr] at hv
  · rfl
  · rfl

theorem alistFind_not_mem (i : String) (m : List (String × Job)) (h : i ∉ keysOf m) :
    alistFind i m = none := by
  rcases hf : alistFind i m with _ | ex
  · rfl
  · exact absurd ((alistFind_isSome_iff i m).mp (by simp [hf])) h

theorem alistUpsert_not_mem_append (i : String) (v : Job) :
    ∀ m : List (String × Job), i ∉ keysOf m → alistUpsert i v m = m ++ [(i, v)] := by
  intro m
  induction m with
  | nil => intro _; rfl
  | cons e rest ih =>
    intro h
    have he : ¬ e.1 = i := fun hc => h (by simp [keysOf, hc])
    have hrest : i ∉ keysOf rest := fun hc =>
      h (by simp only [keysOf, List.map_cons, List.mem_cons]; exact Or.inr hc)
    simp only [alistUpsert]
    rw [if_neg he, ih hrest]
    rfl

theorem mergeFold_kwval :
    ∀ (jobs : List Job) (m : List (String × Job)),
      (∀ e ∈ m, ∃ v, (Prod.snd e).searchKeyword = some v ∧ v.isStr = false) →
      ∀ e ∈ jobs.foldl mergeStep m,
        ∃ v, (Prod.snd e).searchKeyword = some v ∧ v.isStr = false := by
  intro jobs
  induction jobs with
  | nil => intro m hm; exact hm
  | cons j rest ih =>
    intro m hm
    rw [List.foldl_cons]
    rcases hid : jobIdOf j with _ | i
    · rw [mergeStep_id_missing m j hid]; exact ih m hm
    · rcases hf : alistFind i m with _ | ex
      · rw [mergeStep_new m j i hid hf]
        refine ih _ (alistUpsert_forall i _ _ m hm ?_)
        obtain ⟨v, hv1, hv2⟩ := normalizeKw_shape j.searchKeyword
        exact ⟨v, hv1, hv2⟩
      · rw [mergeStep_found m j i ex hid hf]
        refine ih _ (alistUpsert_forall i _ _ m hm ?_)
        exact ⟨mergeKeywordInto ex.searchKeyword j.searchKeyword, rfl,
          mergeKeywordInto_isStr _ _⟩

theorem mergeFold_identity :
    ∀ (jobs : List Job) (m : List (String × Job)),
      (∀ j ∈ jobs, ∃ i, jobIdOf j = some i ∧ i ∉ keysOf m) →
      (jobs.map jobIdOf).Nodup →
      (∀ j ∈ jobs, ∃ v, j.searchKeyword = some v ∧ v.isStr = false) →
      jobs.foldl mergeStep m = m ++ jobs.map (fun j => ((jobIdOf j).getD "", j)) := by
  intro jobs
  induction jobs with
  | nil => intro m _ _ _; simp
  | cons j rest ih =>
    intro m hids hnd hkw
    obtain ⟨i, hid, hni⟩ := hids j (List.mem_cons_self ..)
    obtain ⟨v, hv, hvs⟩ := hkw j (List.mem_cons_self ..)
    simp only [List.map_cons, List.nodup_cons] at hnd
    rw [List.foldl_cons, mergeStep_new m j i hid (alistFind_not_mem i m hni)]
    have hjid : { j with searchKeyword := normalizeKw j.searchKeyword } = j := by
      rw [hv, normalizeKw_nonstr v hvs, ← hv]
    rw [hjid, alistUpsert_not_mem_append i j m hni]
    have hids' : ∀ x ∈ rest, ∃ i', jobIdOf x = some i' ∧ i' ∉ keysOf (m ++ [(i, j)]) := by
      intro x hx
      obtain ⟨i', hid', hni'⟩ := hids x (List.mem_cons_of_mem _ hx)
      refine ⟨i', hid', ?_⟩
      simp only [keysOf, List.map_append, List.mem_append, List.map_cons, List.map_nil,
        List.mem_singleton]
      rintro (hc | hc)
      · exact hni' hc
      · exact hnd.1 (List.mem_map.mpr ⟨x, hx, by rw [hid', hid, hc]⟩)
    rw [ih (m ++ [(i, j)]) hids' hnd.2
      (fun x hx => hkw x (List.mem_cons_of_mem _ hx))]
    simp [hid]

theorem merge_identity (jobs : List Job)
    (hid : ∀ j ∈ jobs, ∃ i, jobIdOf j = some i)
    (hnd : (jobs.map jobIdOf).Nodup)
    (hkw : ∀ j ∈ jobs, ∃ v, j.searchKeyword = some v ∧ v.isStr = false) :
    mergeJobKeywords jobs = jobs := by
  unfold mergeJobKeywords
  rw [mergeFold_identity jobs []
    (fun j hj => by obtain ⟨i, hi⟩ := hid j hj; exact ⟨i, hi, by simp [keysOf]⟩)
    hnd hkw]
  rw [List.nil_append, List.map_map,
    show (Prod.snd ∘ fun j : Job => ((jobIdOf j).getD "", j)) = id from rfl,
    List.map_id]

theorem mergeJobKeywords_props (jobs : List Job) :
    (∀ x ∈ mergeJobKeywords jobs, ∃ i, jobIdOf x = some i) ∧
    ((mergeJobKeywords jobs).map jobIdOf).Nodup ∧
    (∀ x ∈ mergeJobKeywords jobs, ∃ v, x.searchKeyword = some v ∧ v.isStr = false) := by
  refine ⟨?_, ?_, ?_⟩
  · intro x hx
    simp only [mergeJobKeywords] at hx
    obtain ⟨e, he, rfl⟩ := List.mem_map.mp hx
    exact ⟨e.1, mergeFold_ids jobs [] (by intro e he; simp at he) e he⟩
  · unfold mergeJobKeywords
    rw [List.map_map]
    have h1 : ∀ e ∈ List.foldl mergeStep [] jobs, jobIdOf e.2 = some e.1 :=
      mergeFold_ids jobs [] (by intro e he; simp at he)
    have hcongr : (List.foldl mergeStep [] jobs).map (jobIdOf ∘ Prod.snd) =
        (List.foldl mergeStep [] jobs).map (some ∘ Prod.fst) :=
      List.map_congr_left (fun e he => h1 e he)
    rw [hcongr, ← List.map_map]
    have h2 := mergeFold_keys jobs []
    simp only [keysOf, List.map_nil, List.nil_append] at h2
    rw [h2]
    exact List.Nodup.map (Option.some_injective String) (dedupKeepFirst_nodup _)
  · intro x hx
    simp only [mergeJobKeywords] at hx
    obtain ⟨e, he, rfl⟩ := List.mem_map.mp hx
    exact mergeFold_kwval jobs [] (by intro e he; simp at he) e he

theorem mapped_merge_props (m : List Job) (g : Job → Job)
    (hm1 : ∀ x ∈ m, ∃ i, jobIdOf x = some i)
    (hm2 : (m.map jobIdOf).Nodup)
    (hm3 : ∀ x ∈ m, ∃ v, x.searchKeyword = some v ∧ v.isStr = false)
    (hg : ∀ x, (g x).jobNo = x.jobNo ∧ (g x).searchKeyword = x.searchKeyword) :
    (∀ x ∈ m.map g, ∃ i, jobIdOf x = some i) ∧
    ((m.map g).map jobIdOf).Nodup ∧
    (∀ x ∈ m.map g, ∃ v, x.searchKeyword = some v ∧ v.isStr = false) := by
  have hgid : ∀ x, jobIdOf (g x) = jobIdOf x := fun x => jobIdOf_congr _ _ (hg x).1
  refine ⟨?_, ?_, ?_⟩
  · intro x hx
    obtain ⟨y, hy, rfl⟩ := List.mem_map.mp hx
    obtain ⟨i, hi⟩ := hm1 y hy
    exact ⟨i, by rw [hgid, hi]⟩
  · have hcongr : m.map (jobIdOf ∘ g) = m.map jobIdOf :=
      List.map_congr_left (fun y _ => hgid y)
    rw [List.map_map, hcongr]
    exact hm2
  · intro x hx
    obtain ⟨y, hy, rfl⟩ := List.mem_map.mp hx
    obtain ⟨v, hv, hvs⟩ := hm3 y hy
    exact ⟨v, by rw [(hg y).2, hv], hvs⟩

theorem processJobFields_eq_map (l : List Job) :
    processJobFields l = (l.map processLink).map processAddr := by
  by_cases hl : l = []
  · subst hl; rfl
  · unfold processJobFields; rw [if_neg hl]

theorem processJobStatus_eq_map (today : String) (l : List Job)
    (existing : List (String × String)) (he : existing ≠ []) :
    processJobStatus today l existing = l.map (statusStep today existing) := by
  by_cases hl : l = []
  · subst hl; rfl
  · unfold processJobStatus
    rw [if_neg (by simp [hl, he])]

theorem process_jobs_no_prior (today : String) (jobs : List Job) (hj : jobs ≠ []) :
    process_jobs today jobs [] =
      ((mergeJobKeywords jobs).map processLink).map processAddr := by
  simp only [process_jobs]
  rw [if_neg hj,
    if_neg (show ¬ (([] : List (String × String)) ≠ []) from by simp),
    processJobFields_eq_map]

theorem process_jobs_with_prior (today : String) (jobs : List Job)
    (existing : List (String × String)) (hj : jobs ≠ []) (he : existing ≠ []) :
    process_jobs today jobs existing =
      (((mergeJobKeywords jobs).map (statusStep today existing)).map processLink).map
        processAddr := by
  simp only [process_jobs]
  rw [if_neg hj, if_pos he, processJobStatus_eq_map today _ existing he,
    processJobFields_eq_map]

/-- C6 — reconciliation is idempotent: running `process_jobs` a second
time on its own output, against the same prior state, returns that
output unchanged — no record is duplicated and no record's
`search_keyword` list grows, because the merge is the identity on the
already-grouped records and every per-record pass is idempotent. -/
theorem reconcile_idempotent (today : String) (jobs : List Job)
    (existing : List (String × String)) :
    process_jobs today (process_jobs today jobs existing) existing =
      process_jobs today jobs existing := by
  by_cases hj : jobs = []
  · subst hj; rfl
  · obtain ⟨p1, p2, p3⟩ := mergeJobKeywords_props jobs
    by_cases he : existing = []
    · subst he
      rw [process_jobs_no_prior today jobs hj]
      have hcomp : ((mergeJobKeywords jobs).map processLink).map processAddr =
          (mergeJobKeywords jobs).map (fun r => processAddr (processLink r)) := by
        rw [List.map_map]
        exact List.map_congr_left (fun r _ => rfl)
      rw [hcomp]
      by_cases hm0 : mergeJobKeywords jobs = []
      · rw [hm0]; rfl
      · have hout : (mergeJobKeywords jobs).map
            (fun r => processAddr (processLink r)) ≠ [] := by
          simp [hm0]
        rw [process_jobs_no_prior today _ hout]
        obtain ⟨q1, q2, q3⟩ := mapped_merge_props (mergeJobKeywords jobs)
          (fun r => processAddr (processLink r)) p1 p2 p3 fieldPass_same
        rw [merge_identity _ q1 q2 q3, List.map_map, List.map_map]
        exact List.map_congr_left (fun r _ => fieldPass_idem r)
    · rw [process_jobs_with_prior today jobs existing hj he]
      have hcomp : (((mergeJobKeywords jobs).map (statusStep today existing)).map
            processLink).map processAddr =
          (mergeJobKeywords jobs).map
            (fun r => processAddr (processLink (statusStep today existing r))) := by
        rw [List.map_map, List.map_map]
        exact List.map_congr_left (fun r _ => rfl)
      rw [hcomp]
      by_cases hm0 : mergeJobKeywords jobs = []
      · rw [hm0]; rfl
      · have hout : (mergeJobKeywords jobs).map
            (fun r => processAddr (processLink (statusStep today existing r))) ≠ [] := by
          simp [hm0]
        rw [process_jobs_with_prior today _ existing hout he]
        obtain ⟨q1, q2, q3⟩ := mapped_merge_props (mergeJobKeywords jobs)
          (fun r => processAddr (processLink (statusStep today existing r))) p1 p2 p3
          (statusFieldPass_same today existing)
        rw [merge_identity _ q1 q2 q3, List.map_map, List.map_map, List.map_map]
        exact List.map_congr_left (fun r _ => statusPass_idem today existing r)

/-! ### Claim C4 — reactivation of a re-seen inactive listing through
`Crawler.process_jobs_data` (crawler.py lines 675-731, 850-906;
mongodb_manager.py lines 272-314) -/

theorem processLink_lifecycle (j : Job) :
    (processLink j).status = j.status ∧
      (processLink j).lastUpdateDate = j.lastUpdateDate ∧
      (processLink j).delistedDate = j.delistedDate := by
  unfold processLink
  rcases j.link with _ | lv
  · exact ⟨rfl, rfl, rfl⟩
  · by_cases ht : lv.truthy = true
    · rcases lv with s | ⟨a, u, c⟩ <;> simp [ht]
    · simp [ht]

theorem processAddr_lifecycle (j : Job) :
    (processAddr j).status = j.status ∧
      (processAddr j).lastUpdateDate = j.lastUpdateDate ∧
      (processAddr j).delistedDate = j.delistedDate := by
  unfold processAddr
  rcases j.jobAddrNoDesc with _ | t
  · exact ⟨rfl, rfl, rfl⟩
  · by_cases ht : t = "" <;> simp [ht]

theorem stateFind_map (f : JobDoc → JobDoc) (hf : ∀ d, (f d).jobNo = d.jobNo)
    (i : String) : ∀ state : List JobDoc,
      stateFind i (state.map f) = (stateFind i state).map f := by
  intro state
  induction state with
  | nil => rfl
  | cons d rest ih =>
    simp only [List.map_cons, stateFind, hf d]
    by_cases hd : d.jobNo = i
    · rw [if_pos hd, if_pos hd]; rfl
    · rw [if_neg hd, if_neg hd]; exact ih

theorem stateFind_ne_nil (i : String) (state : List JobDoc) (d : JobDoc)
    (h : stateFind i state = some d) : state ≠ [] := by
  intro hc; subst hc; simp [stateFind] at h

theorem lookupStatus_getExisting (i : String) :
    ∀ (state : List JobDoc) (d : JobDoc), stateFind i state = some d →
      lookupStatus i (getExistingJobs state) = some (d.status.getD "active") := by
  intro state
  induction state with
  | nil => intro d h; simp [stateFind] at h
  | cons x rest ih =>
    intro d h
    simp only [stateFind] at h
    simp only [getExistingJobs, List.map_cons, lookupStatus]
    by_cases hx : x.jobNo = i
    · rw [if_pos hx] at h
      obtain rfl := Option.some.injEq .. ▸ h
      rw [if_pos hx]
    · rw [if_neg hx] at h
      rw [if_neg hx]
      simpa [getExistingJobs] using ih d h

theorem crawlerMerge_singleton (j : Job) (i : String) (v : PyVal)
    (hid : j.jobNo = some i) (hkw : j.searchKeyword = some v) :
    crawlerMergeJobKeywords [j] =
      Except.ok [if v.isStr = true
        then { j with searchKeyword := some (PyVal.pcons v PyVal.pnil) }
        else j] := by
  rcases j with ⟨n, k, lk, ad, st, lu, dd, aa, ju, cu, ci, di, mu, r⟩
  have hn : n = some i := hid
  have hk : k = some v := hkw
  subst hn; subst hk
  rcases v with _ | s | _ | ⟨h, t⟩ <;> rfl

theorem except_bind_ok {α β : Type} (a : α) (f : α → Except String β) :
    (Except.ok a : Except String α) >>= f = f a := rfl

theorem crawlerPJS_singleton (today : String) (state : List JobDoc) (j' : Job)
    (i : String) (d : JobDoc)
    (hid : j'.jobNo = some i)
    (hfind : stateFind i state = some d)
    (hinact : d.status = some "inactive") :
    crawlerProcessJobStatus today state [j'] =
      ([{ j' with lastUpdateDate := some today, status := some "active" }],
       reactivateJobsDB today [i] (updateJobStatusDB today [i] state)) := by
  have hne : state ≠ [] := stateFind_ne_nil i state d hfind
  have hex : getExistingJobs state ≠ [] := by
    rcases state with _ | ⟨x, rest⟩
    · exact absurd rfl hne
    · simp [getExistingJobs]
  have hgd : j'.jobNo.getD "" = i := by rw [hid]; rfl
  have hlk : lookupStatus i (getExistingJobs state) = some "inactive" := by
    rw [lookupStatus_getExisting i state d hfind, hinact]; rfl
  have hstep : crawlerStatusStep today (getExistingJobs state) j' =
      { j' with lastUpdateDate := some today, status := some "active" } := by
    unfold crawlerStatusStep
    rw [hgd, hlk]
    simp only
    rw [if_pos trivial]
  have hreact : crawlerReactIds (getExistingJobs state) [j'] = [i] := by
    unfold crawlerReactIds
    simp only [List.filterMap_cons, List.filterMap_nil]
    rw [hgd, hlk]
    simp
  simp only [crawlerProcessJobStatus, List.map_cons, List.map_nil]
  rw [if_neg (List.cons_ne_nil j' []), if_neg hex, hgd, hstep, hreact,
    if_pos (List.cons_ne_nil i [])]

theorem stateFind_lifecycle_pair (today i : String) (state : List JobDoc) (d : JobDoc)
    (hfind : stateFind i state = some d) (hdno : d.jobNo = i)
    (hinact : d.status = some "inactive") :
    stateFind i (reactivateJobsDB today [i] (updateJobStatusDB today [i] state)) =
      some { d with status := some "active", lastUpdateDate := some today,
                    delistedDate := none } := by
  unfold updateJobStatusDB reactivateJobsDB
  rw [if_neg (List.cons_ne_nil i []), if_neg (List.cons_ne_nil i [])]
  rw [stateFind_map _ (fun x => by split_ifs <;> rfl) i,
    stateFind_map _ (fun x => by split_ifs <;> rfl) i, hfind]
  simp only [Option.map_some']
  simp [hdno, hinact]

/-- C4 (amended) — a listing persisted as `inactive` that reappears in
the current batch is reactivated end-to-end by `process_jobs_data`: the
persisted document ends `active`, `reactivate_jobs` removes its
`delisted_date` via `$unset`, and `last_update_date` becomes today —
but its `search_keyword` is replaced by this run's keyword value (the
`$set` upsert discards the previously persisted keywords instead of
unioning them). -/
theorem reactivated_reappearing_listing (now today : String) (state : List JobDoc)
    (j : Job) (i : String) (v : PyVal) (d : JobDoc)
    (hid : j.jobNo = some i)
    (hkw : j.searchKeyword = some v)
    (hdd : j.delistedDate = none)
    (hfind : stateFind i state = some d)
    (hinact : d.status = some "inactive") :
    ∃ (outJobs : List Job) (stateOut : List JobDoc) (df : JobDoc),
      processJobsData now today state [j] = Except.ok (outJobs, stateOut) ∧
      stateFind i stateOut = some df ∧
      df.status = some "active" ∧
      df.delistedDate = none ∧
      df.lastUpdateDate = some today ∧
      df.searchKeyword = some (if v.isStr = true then PyVal.pcons v PyVal.pnil else v) := by
  set j1 : Job := if v.isStr = true
      then { j with searchKeyword := some (PyVal.pcons v PyVal.pnil) } else j with hj1
  have hj1id : j1.jobNo = some i := by
    rw [hj1]; by_cases hv : v.isStr = true <;> simp [hv, hid]
  have hj1kw : j1.searchKeyword =
      some (if v.isStr = true then PyVal.pcons v PyVal.pnil else v) := by
    rw [hj1]; by_cases hv : v.isStr = true <;> simp [hv, hkw]
  have hj1dd : j1.delistedDate = none := by
    rw [hj1]; by_cases hv : v.isStr = true <;> simp [hv, hdd]
  set j2 : Job := { j1 with lastUpdateDate := some today, status := some "active" } with hj2
  set j3 : Job := processAddr (processLink j2) with hj3
  have hj3id : j3.jobNo = some i := by
    rw [hj3, (fieldPass_same j2).1]; exact hj1id
  have hj3kw : j3.searchKeyword =
      some (if v.isStr = true then PyVal.pcons v PyVal.pnil else v) := by
    rw [hj3, (fieldPass_same j2).2]; exact hj1kw
  have hj3st : j3.status = some "active" := by
    rw [hj3, (processAddr_lifecycle (processLink j2)).1, (processLink_lifecycle j2).1]
  have hj3lu : j3.lastUpdateDate = some today := by
    rw [hj3, (processAddr_lifecycle (processLink j2)).2.1, (processLink_lifecycle j2).2.1]
  have hj3dd : j3.delistedDate = none := by
    rw [hj3, (processAddr_lifecycle (processLink j2)).2.2, (processLink_lifecycle j2).2.2]
    exact hj1dd
  have hdno : d.jobNo = i := (stateFind_mem i state d hfind).2
  set d2 : JobDoc := { d with status := some "active", lastUpdateDate := some today,
                               delistedDate := none } with hd2
  have hfind2 : stateFind i (reactivateJobsDB today [i] (updateJobStatusDB today [i] state)) =
      some d2 := stateFind_lifecycle_pair today i state d hfind hdno hinact
  have hmerge := crawlerMerge_singleton j i v hid hkw
  have hpjs := crawlerPJS_singleton today state j1 i d hj1id hfind hinact
  have hpf : processJobFields [j2] = [j3] := by
    rw [processJobFields_eq_map]
    simp only [List.map_cons, List.map_nil]
  have hsave : insertJobs now today [j3]
      (reactivateJobsDB today [i] (updateJobStatusDB today [i] state)) =
      some (stateUpdate i (applySet d2 { j3 with mongodbUpdateTime := some now })
        (reactivateJobsDB today [i] (updateJobStatusDB today [i] state))) := by
    unfold insertJobs
    rw [if_neg (List.cons_ne_nil j3 []),
      List.foldlM_cons, upsertJob_update now today _ j3 i d2 hj3id hfind2]
    rfl
  refine ⟨[j3],
    stateUpdate i (applySet d2 { j3 with mongodbUpdateTime := some now })
      (reactivateJobsDB today [i] (updateJobStatusDB today [i] state)),
    applySet d2 { j3 with mongodbUpdateTime := some now }, ?_, ?_, ?_, ?_, ?_, ?_⟩
  · simp only [processJobsData]
    rw [if_neg (List.cons_ne_nil j []), hmerge, ← hj1, except_bind_ok]
    rw [hpjs]
    simp only
    rw [← hj2, hpf, hsave]
    rfl
  · exact stateFind_stateUpdate_self i d2 _ _ hfind2 hdno
  · show setOpt j3.status d2.status = some "active"
    rw [hj3st]; rfl
  · show setOpt j3.delistedDate d2.delistedDate = none
    rw [hj3dd]; rfl
  · show setOpt j3.lastUpdateDate d2.lastUpdateDate = some today
    rw [hj3lu]; rfl
  · show setOpt j3.searchKeyword d2.searchKeyword =
      some (if v.isStr = true then PyVal.pcons v PyVal.pnil else v)
    rw [hj3kw]; rfl

theorem reactivated_reappearing_listing_witness :
    (stateFind "A1"
        [{ jobNo := "A1", status := some "inactive",
           delistedDate := some "2024-01-01",
           searchKeyword := some (PyVal.pcons (PyVal.pstr "python") PyVal.pnil) }] =
      some { jobNo := "A1", status := some "inactive",
             delistedDate := some "2024-01-01",
             searchKeyword := some (PyVal.pcons (PyVal.pstr "python") PyVal.pnil) }) ∧
    (∃ (outJobs : List Job) (stateOut : List JobDoc) (df : JobDoc),
      processJobsData "now" "2024-06-02"
          [{ jobNo := "A1", status := some "inactive",
             delistedDate := some "2024-01-01",
             searchKeyword := some (PyVal.pcons (PyVal.pstr "python") PyVal.pnil) }]
          [{ jobNo := some "A1", searchKeyword := some (PyVal.pstr "java") }] =
        Except.ok (outJobs, stateOut) ∧
      stateFind "A1" stateOut = some df ∧
      df.status = some "active" ∧
      df.delistedDate = none ∧
      df.lastUpdateDate = some "2024-06-02" ∧
      df.searchKeyword = some (if (PyVal.pstr "java").isStr = true
        then PyVal.pcons (PyVal.pstr "java") PyVal.pnil else PyVal.pstr "java")) :=
  ⟨rfl,
   reactivated_reappearing_listing "now" "2024-06-02"
     [{ jobNo := "A1", status := some "inactive",
        delistedDate := some "2024-01-01",
        searchKeyword := some (PyVal.pcons (PyVal.pstr "python") PyVal.pnil) }]
     { jobNo := some "A1", searchKeyword := some (PyVal.pstr "java") }
     "A1" (PyVal.pstr "java")
     { jobNo := "A1", status := some "inactive",
       delistedDate := some "2024-01-01",
       searchKeyword := some (PyVal.pcons (PyVal.pstr "python") PyVal.pnil) }
     rfl rfl rfl rfl rfl⟩

/-- C4 counterexample — the claim says the reactivated listing's
`searchKeywords` becomes the union of the prior persisted keywords and
this run's; a listing persisted inactive with `["python"]` and re-seen
under `"java"` alone ends with exactly `["java"]` (and the batch copy
likewise): the prior keyword `"python"` is discarded by the `$set`
upsert, so no union is formed. -/
theorem reactivation_union_counterexample :
    processJobsData "now" "2024-06-02"
        [{ jobNo := "A1", status := some "inactive",
           delistedDate := some "2024-01-01",
           searchKeyword := some (PyVal.pcons (PyVal.pstr "python") PyVal.pnil) }]
        [{ jobNo := some "A1", searchKeyword := some (PyVal.pstr "java") }] =
      Except.ok
        ([{ jobNo := some "A1",
            searchKeyword := some (PyVal.pcons (PyVal.pstr "java") PyVal.pnil),
            status := some "active", lastUpdateDate := some "2024-06-02" }],
         [{ jobNo := "A1", status := some "active",
            searchKeyword := some (PyVal.pcons (PyVal.pstr "java") PyVal.pnil),
            lastUpdateDate := some "2024-06-02", delistedDate := none,
            mongodbUpdateTime := some "now" }]) ∧
    PyVal.mem (PyVal.pcons (PyVal.pstr "python") PyVal.pnil) (PyVal.pstr "python") = true ∧
    PyVal.mem (PyVal.pcons (PyVal.pstr "java") PyVal.pnil) (PyVal.pstr "python") = false :=
  ⟨rfl, rfl, rfl⟩

end JobInsight
